import Mathlib

/-!
# Shopping cart (`src/src/cart.jsx`): state engine and pricing

A shallow embedding of the logic of the `Cart` component:

* the module constant `productList`;
* the mount effect that reads `localStorage` (`loadInitialState`) and the
  persist effect (`persist`), over a model of `JSON.parse` and `JSON.stringify`;
* the handlers `handleQuantityChange`, `handleRemoveProduct`,
  `handleDiscountChange`;
* the derived values `subTotal`, `discountVal`, `finalTotal`.

Modelling conventions.

* A JavaScript number is a `JSNum`: a finite value (a rational), `NaN`,
  `+Infinity` or `-Infinity`; `+0` and `-0` are one value. Two layers of
  arithmetic are given. The operations of `JSNum` and the functions built on
  them (`subTotal`, `discountVal`, `finalTotal`, `parseFloat`) are exact; they
  serve the statements whose values are exact in binary64 or that do not depend
  on the arithmetic. The namespace `Binary64` gives the same operations and
  functions with every result rounded to the nearest binary64 value, ties to
  even, as the source computes them; the bounds on the discount are stated
  there. Every binary64 value is a finite decimal.
* A JavaScript string is a Lean `String`, a sequence of Unicode scalar values:
  a lone surrogate has no counterpart.
* A cart line is a `LineItem` record, the shape of the entries of `productList`,
  with an integer id; what `JSON.parse` returns is an untyped `JSValue`, and
  `LineItem.toJS` is the object that a line is.
* The built-ins `parseFloat`, `Number`, `JSON.stringify` and `JSON.parse` follow
  ECMAScript: `StrDecimalLiteral` and `StringToNumber`, `Number::toString`,
  `QuoteJSONString`, and the JSON grammar.
* A React state setter is modelled by returning the next state.
-/

namespace Cart

/-! ## Numbers -/

/-- A JavaScript Number: finite (exact rational), NaN, or an infinity. -/
inductive JSNum where
  | fin (q : ℚ)
  | nan
  | pinf
  | ninf
deriving DecidableEq

namespace JSNum

/-- Unary minus. -/
def neg : JSNum → JSNum
  | fin q => fin (-q)
  | nan => nan
  | pinf => ninf
  | ninf => pinf

/-- The `+` operator on numbers. -/
def add : JSNum → JSNum → JSNum
  | nan, _ => nan
  | _, nan => nan
  | fin a, fin b => fin (a + b)
  | fin _, pinf => pinf
  | fin _, ninf => ninf
  | pinf, fin _ => pinf
  | ninf, fin _ => ninf
  | pinf, pinf => pinf
  | ninf, ninf => ninf
  | pinf, ninf => nan
  | ninf, pinf => nan

/-- The `-` operator on numbers. -/
def sub (a b : JSNum) : JSNum := add a (neg b)

/-- An infinity times a finite factor: NaN for zero, otherwise the sign rule. -/
def infTimes (positive : Bool) (q : ℚ) : JSNum :=
  if q = 0 then nan
  else if decide (0 < q) = positive then pinf else ninf

/-- The `*` operator on numbers. -/
def mul : JSNum → JSNum → JSNum
  | nan, _ => nan
  | _, nan => nan
  | fin a, fin b => fin (a * b)
  | fin a, pinf => infTimes true a
  | fin a, ninf => infTimes false a
  | pinf, fin b => infTimes true b
  | ninf, fin b => infTimes false b
  | pinf, pinf => pinf
  | ninf, ninf => pinf
  | pinf, ninf => ninf
  | ninf, pinf => ninf

/-- The `/` operator on numbers (a zero divisor is `+0`). -/
def div : JSNum → JSNum → JSNum
  | nan, _ => nan
  | _, nan => nan
  | fin a, fin b =>
    if b = 0 then (if a = 0 then nan else if 0 < a then pinf else ninf)
    else fin (a / b)
  | fin _, pinf => fin 0
  | fin _, ninf => fin 0
  | pinf, fin b => if 0 ≤ b then pinf else ninf
  | ninf, fin b => if 0 ≤ b then ninf else pinf
  | pinf, pinf => nan
  | ninf, ninf => nan
  | pinf, ninf => nan
  | ninf, pinf => nan

/-- The `<` operator on numbers: false as soon as one side is NaN. -/
def lt : JSNum → JSNum → Bool
  | nan, _ => false
  | _, nan => false
  | fin a, fin b => decide (a < b)
  | fin _, pinf => true
  | fin _, ninf => false
  | pinf, _ => false
  | ninf, fin _ => true
  | ninf, pinf => true
  | ninf, ninf => false

/-- The `>` operator on numbers. -/
def gt (a b : JSNum) : Bool := lt b a

/-- The `>=` operator on numbers: false as soon as one side is NaN. -/
def ge : JSNum → JSNum → Bool
  | nan, _ => false
  | _, nan => false
  | a, b => !(lt a b)

/-- The global `isNaN` on a number. -/
def isNaN : JSNum → Bool
  | nan => true
  | _ => false

end JSNum

/-! ## Strings to numbers: `parseFloat` and `Number` -/

/-- The characters of `StrWhiteSpaceChar`: white space and line terminators. -/
def isStrWhiteSpaceChar (c : Char) : Bool :=
  let n := c.toNat
  n = 9 || n = 10 || n = 11 || n = 12 || n = 13 || n = 32 || n = 160 ||
  n = 0x1680 || (0x2000 ≤ n && n ≤ 0x200A) || n = 0x2028 || n = 0x2029 ||
  n = 0x202F || n = 0x205F || n = 0x3000 || n = 0xFEFF

/-- Value of a decimal digit character. -/
def digitVal (c : Char) : Nat := c.toNat - 48

/-- The longest prefix made of decimal digits, and what follows it. -/
def takeDigits : List Char → List Char × List Char
  | [] => ([], [])
  | c :: cs =>
    if c.isDigit then ((takeDigits cs).1.cons c, (takeDigits cs).2)
    else ([], c :: cs)

/-- The natural number written by a list of decimal digits. -/
def digitsToNat (ds : List Char) : Nat :=
  ds.foldl (fun acc c => 10 * acc + digitVal c) 0

/-- The value `m × 10^e`. -/
def decValue (m : Nat) (e : Int) : ℚ := (m : ℚ) * (10 : ℚ) ^ e

/-- An optional sign character: whether it is a minus, and what follows. -/
def takeSign : List Char → Bool × List Char
  | [] => (false, [])
  | c :: cs => if c = '+' then (false, cs) else if c = '-' then (true, cs) else (false, c :: cs)

/-- The `ExponentPart` of a `StrDecimalLiteral`, when one is present: the exponent
and what follows; otherwise exponent 0 and the input untouched. -/
def scanExponent (cs : List Char) : Int × List Char :=
  match cs with
  | [] => (0, [])
  | c :: t =>
    if c = 'e' ∨ c = 'E' then
      let sg := takeSign t
      let ds := takeDigits sg.2
      if ds.1 = [] then (0, cs)
      else ((if sg.1 then -(digitsToNat ds.1 : Int) else (digitsToNat ds.1 : Int)), ds.2)
    else (0, cs)

/-- The longest prefix that is a `StrUnsignedDecimalLiteral` other than
`Infinity`: its mantissa, its decimal exponent, and what follows. -/
def scanUnsignedDecimal (cs : List Char) : Option (Nat × Int × List Char) :=
  let ip := takeDigits cs
  let fp := takeDigits (ip.2.drop 1)
  if ip.2.head? = some '.' ∧ ¬ (ip.1 = [] ∧ fp.1 = []) then
    let ex := scanExponent fp.2
    some (digitsToNat (ip.1 ++ fp.1), ex.1 - (fp.1.length : Int), ex.2)
  else if ip.1 = [] then none
  else
    let ex := scanExponent ip.2
    some (digitsToNat ip.1, ex.1, ex.2)

/-- The letters of the literal `Infinity`. -/
def infinityChars : List Char := ['I', 'n', 'f', 'i', 'n', 'i', 't', 'y']

/-- The longest prefix that is a `StrDecimalLiteral`: its value and what
follows; `none` when no prefix is one. -/
def scanStrDecimalLiteral (cs : List Char) : Option (JSNum × List Char) :=
  let sg := takeSign cs
  if infinityChars.isPrefixOf sg.2 then
    some ((if sg.1 then JSNum.ninf else JSNum.pinf), sg.2.drop 8)
  else
    match scanUnsignedDecimal sg.2 with
    | some (m, e, rest) =>
      some (JSNum.fin (if sg.1 then -(decValue m e) else decValue m e), rest)
    | none => none

/-- The global `parseFloat` on a string: leading white space is skipped, the
longest numeric prefix is read, NaN when there is none. -/
def parseFloat (s : String) : JSNum :=
  match scanStrDecimalLiteral (s.toList.dropWhile isStrWhiteSpaceChar) with
  | some (v, _) => v
  | none => JSNum.nan

/-- Value of a digit in base 16 (also used for bases 2 and 8). -/
def hexVal (c : Char) : Option Nat :=
  if c.isDigit then some (c.toNat - 48)
  else if 'a'.toNat ≤ c.toNat ∧ c.toNat ≤ 'f'.toNat then some (c.toNat - 87)
  else if 'A'.toNat ≤ c.toNat ∧ c.toNat ≤ 'F'.toNat then some (c.toNat - 55)
  else none

/-- The number written by `cs` in base `b`, when every character is a digit of
that base and there is at least one. -/
def digitsInBase (b : Nat) (cs : List Char) : Option Nat :=
  if cs = [] then none
  else cs.foldl (fun acc c =>
    match acc, hexVal c with
    | some a, some d => if d < b then some (b * a + d) else none
    | _, _ => none) (some 0)

/-- A `NonDecimalIntegerLiteral` (`0x`, `0o`, `0b`), or NaN. -/
def scanNonDecimal (cs : List Char) : JSNum :=
  match cs with
  | '0' :: p :: ds =>
    let base : Option Nat :=
      if p = 'x' ∨ p = 'X' then some 16
      else if p = 'o' ∨ p = 'O' then some 8
      else if p = 'b' ∨ p = 'B' then some 2
      else none
    match base with
    | some b =>
      match digitsInBase b ds with
      | some n => JSNum.fin (n : ℚ)
      | none => JSNum.nan
    | none => JSNum.nan
  | _ => JSNum.nan

/-- White space removed at both ends. -/
def trimWhiteSpace (cs : List Char) : List Char :=
  ((cs.dropWhile isStrWhiteSpaceChar).reverse.dropWhile isStrWhiteSpaceChar).reverse

/-- The operation `StringToNumber`: the whole string, trimmed, must be a numeric literal; the
empty string is 0. -/
def stringToNumber (s : String) : JSNum :=
  let t := trimWhiteSpace s.toList
  if t = [] then JSNum.fin 0
  else
    match scanStrDecimalLiteral t with
    | some (v, []) => v
    | _ => scanNonDecimal t

/-- A primitive value, as an event handler may receive one. -/
inductive JSPrim where
  | undefined
  | null
  | bool (b : Bool)
  | num (n : JSNum)
  | str (s : String)
deriving DecidableEq

/-- The operation `ToNumber` on a primitive; it is what both `Number(x)` and `x < 1`
apply to `x`. -/
def toNumber : JSPrim → JSNum
  | JSPrim.undefined => JSNum.nan
  | JSPrim.null => JSNum.fin 0
  | JSPrim.bool b => if b then JSNum.fin 1 else JSNum.fin 0
  | JSPrim.num n => n
  | JSPrim.str s => stringToNumber s

/-! ## Cart state -/

/-- One cart line: an entry of `productList`. -/
structure LineItem where
  id : Int
  name : String
  price : JSNum
  quantity : JSNum
deriving DecidableEq

/-- The hardcoded catalog. -/
def productList : List LineItem :=
  [ { id := 1, name := "Product A", price := JSNum.fin 50, quantity := JSNum.fin 1 },
    { id := 2, name := "Product B", price := JSNum.fin 30, quantity := JSNum.fin 1 } ]

/-- The three pieces of component state. -/
structure CartState where
  products : List LineItem
  discount : String
  discountError : String
deriving DecidableEq

/-- The message of the discount validation. -/
def discountMessage : String := "Discount must be a valid number between 0 and 100."

/-- The `products` after `handleQuantityChange(id, newQty)`. -/
def handleQuantityChange (products : List LineItem) (id : Int) (newQty : JSPrim) :
    List LineItem :=
  if JSNum.lt (toNumber newQty) (JSNum.fin 1) then products
  else products.map (fun p => if p.id = id then { p with quantity := toNumber newQty } else p)

/-- The `products` after `handleRemoveProduct(id)`. -/
def handleRemoveProduct (products : List LineItem) (id : Int) : List LineItem :=
  products.filter (fun p => p.id != id)

/-- The state after `handleDiscountChange(value)`. -/
def handleDiscountChange (st : CartState) (value : String) : CartState :=
  let parsed := parseFloat value
  { st with
    discount := value
    discountError :=
      if parsed.isNaN || JSNum.lt parsed (JSNum.fin 0) || JSNum.gt parsed (JSNum.fin 100)
      then discountMessage else "" }

/-- Truthiness of a string: it is not empty. -/
def truthy (s : String) : Bool := s != ""

/-- The derived value `subTotal`. -/
def subTotal (products : List LineItem) : JSNum :=
  products.foldl (fun acc curr => JSNum.add acc (JSNum.mul curr.price curr.quantity))
    (JSNum.fin 0)

/-- The derived value `discountVal`. -/
def discountVal (st : CartState) : JSNum :=
  if truthy st.discount && !(truthy st.discountError) then
    JSNum.div (JSNum.mul (subTotal st.products) (parseFloat st.discount)) (JSNum.fin 100)
  else JSNum.fin 0

/-- The derived value `finalTotal`. -/
def finalTotal (st : CartState) : JSNum :=
  JSNum.sub (subTotal st.products) (discountVal st)

/-! ## JSON values, `JSON.stringify`, `JSON.parse` -/

/-- A value of the JSON data model: what `JSON.parse` returns. The members of
an object are kept in insertion order. -/
inductive JSValue where
  | null
  | bool (b : Bool)
  | num (n : JSNum)
  | str (s : String)
  | arr (xs : List JSValue)
  | obj (members : List (String × JSValue))

/-- The object that a cart line is: the four properties in the order of the
literals of `productList`. -/
def LineItem.toJS (p : LineItem) : JSValue :=
  JSValue.obj
    [ ("id", JSValue.num (JSNum.fin (p.id : ℚ))),
      ("name", JSValue.str p.name),
      ("price", JSValue.num p.price),
      ("quantity", JSValue.num p.quantity) ]

/-- The character of a decimal digit. -/
def digitChar (d : Nat) : Char := Char.ofNat (48 + d)

/-- The decimal digits of `n`, least significant first (none for 0); the first
argument bounds the number of digits. -/
def digitsLE : Nat → Nat → List Nat
  | 0, _ => []
  | fuel + 1, n => if n = 0 then [] else (n % 10) :: digitsLE fuel (n / 10)

/-- The decimal numeral of a natural number. -/
def natToChars (n : Nat) : List Char :=
  if n = 0 then ['0'] else ((digitsLE n n).reverse).map digitChar

/-- Search, from `k` on, for an exponent `k` with `den ∣ 10^k`. -/
def findScale : Nat → Nat → Nat → Nat
  | 0, k, _ => k
  | fuel + 1, k, den => if 10 ^ k % den = 0 then k else findScale fuel (k + 1) den

/-- The number of decimal places of a finite decimal with denominator `den`. -/
def decimalScale (den : Nat) : Nat := findScale den 0 den

/-- The last step of `Number::toString`: the significant digits `ds` (most
significant first) of a positive number whose decimal point stands `n` places
after the first digit. -/
def renderDigits (ds : List Nat) (n : Int) : List Char :=
  let k : Int := ds.length
  if k ≤ n ∧ n ≤ 21 then
    ds.map digitChar ++ List.replicate (n - k).toNat '0'
  else if 0 < n ∧ n ≤ 21 then
    (ds.take n.toNat).map digitChar ++ '.' :: (ds.drop n.toNat).map digitChar
  else if -6 < n ∧ n ≤ 0 then
    '0' :: '.' :: (List.replicate (-n).toNat '0' ++ ds.map digitChar)
  else
    let e : Int := n - 1
    let es : List Char := (if e < 0 then '-' else '+') :: natToChars e.natAbs
    match ds with
    | [] => []
    | [d] => digitChar d :: 'e' :: es
    | d :: t => digitChar d :: '.' :: (t.map digitChar ++ 'e' :: es)

/-- The operation `Number::toString` on a positive finite number. A finite decimal is printed
exactly; another rational is cut after `den` decimal places. -/
def positiveToString (q : ℚ) : List Char :=
  let k0 := decimalScale q.den
  let m := q.num.natAbs * 10 ^ k0 / q.den
  let le := digitsLE m m
  renderDigits ((le.dropWhile (fun d => d == 0)).reverse) ((le.length : Int) - (k0 : Int))

/-- The operation `Number::toString`. -/
def numberToString : JSNum → List Char
  | JSNum.nan => ['N', 'a', 'N']
  | JSNum.pinf => infinityChars
  | JSNum.ninf => '-' :: infinityChars
  | JSNum.fin q =>
    if q = 0 then ['0']
    else if q < 0 then '-' :: positiveToString (-q)
    else positiveToString q

/-- A hexadecimal digit, lower case. -/
def hexDigitChar (d : Nat) : Char :=
  if d < 10 then Char.ofNat (48 + d) else Char.ofNat (87 + d)

/-- The escape of one character in `QuoteJSONString`. -/
def escapeChar (c : Char) : List Char :=
  if c = '"' then ['\\', '"']
  else if c = '\\' then ['\\', '\\']
  else if c.toNat = 8 then ['\\', 'b']
  else if c.toNat = 12 then ['\\', 'f']
  else if c.toNat = 10 then ['\\', 'n']
  else if c.toNat = 13 then ['\\', 'r']
  else if c.toNat = 9 then ['\\', 't']
  else if c.toNat < 32 then
    ['\\', 'u', '0', '0', hexDigitChar (c.toNat / 16), hexDigitChar (c.toNat % 16)]
  else [c]

/-- The escaped characters of a string, without the quotes. -/
def escapeChars : List Char → List Char
  | [] => []
  | c :: cs => escapeChar c ++ escapeChars cs

/-- The operation `QuoteJSONString`. -/
def quoteJSONString (s : String) : List Char :=
  '"' :: (escapeChars s.toList ++ ['"'])

mutual
/-- The operation `SerializeJSONProperty` on a JSON value, without indentation. A number that
is not finite is written `null`. -/
def renderValue : JSValue → List Char
  | JSValue.null => ['n', 'u', 'l', 'l']
  | JSValue.bool b => if b then ['t', 'r', 'u', 'e'] else ['f', 'a', 'l', 's', 'e']
  | JSValue.num n =>
    match n with
    | JSNum.fin q => numberToString (JSNum.fin q)
    | _ => ['n', 'u', 'l', 'l']
  | JSValue.str s => quoteJSONString s
  | JSValue.arr xs => '[' :: (renderElems xs ++ [']'])
  | JSValue.obj ms => '{' :: (renderMembers ms ++ ['}'])
/-- The elements of an array, separated by commas. -/
def renderElems : List JSValue → List Char
  | [] => []
  | v :: vs => renderValue v ++ renderMoreElems vs
/-- The elements after the first, each after a comma. -/
def renderMoreElems : List JSValue → List Char
  | [] => []
  | v :: vs => ',' :: (renderValue v ++ renderMoreElems vs)
/-- The members of an object, separated by commas. -/
def renderMembers : List (String × JSValue) → List Char
  | [] => []
  | m :: ms => quoteJSONString m.1 ++ ':' :: (renderValue m.2 ++ renderMoreMembers ms)
/-- The members after the first, each after a comma. -/
def renderMoreMembers : List (String × JSValue) → List Char
  | [] => []
  | m :: ms => ',' :: (quoteJSONString m.1 ++ ':' :: (renderValue m.2 ++ renderMoreMembers ms))
end

/-- The call `JSON.stringify(value)` on a JSON value. -/
def JSON.stringify (v : JSValue) : String := String.mk (renderValue v)

/-- The white space of the JSON grammar. -/
def isJSONWhiteSpace (c : Char) : Bool :=
  c = ' ' || c = '\t' || c = '\n' || c = '\r'

/-- Leading JSON white space removed. -/
def skipWS (cs : List Char) : List Char := cs.dropWhile isJSONWhiteSpace

/-- The code unit written by four hexadecimal digits. -/
def hex4 (a b c d : Char) : Option Nat :=
  match hexVal a, hexVal b, hexVal c, hexVal d with
  | some x, some y, some z, some w => some (((x * 16 + y) * 16 + z) * 16 + w)
  | _, _, _, _ => none

/-- The character of a one-letter escape. -/
def unescapeChar (e : Char) : Option Char :=
  if e = '"' then some '"'
  else if e = '\\' then some '\\'
  else if e = '/' then some '/'
  else if e = 'b' then some (Char.ofNat 8)
  else if e = 'f' then some (Char.ofNat 12)
  else if e = 'n' then some (Char.ofNat 10)
  else if e = 'r' then some (Char.ofNat 13)
  else if e = 't' then some (Char.ofNat 9)
  else none

/-- The low surrogate written by a `\u` escape at the head of `cs`, and what
follows it. -/
def takeLowSurrogate (cs : List Char) : Option (Nat × List Char) :=
  match cs with
  | b :: u :: a1 :: a2 :: a3 :: a4 :: rest =>
    if b = '\\' ∧ u = 'u' then
      match hex4 a1 a2 a3 a4 with
      | some lo => if 0xDC00 ≤ lo ∧ lo < 0xE000 then some (lo, rest) else none
      | none => none
    else none
  | _ => none

/-- The characters of a JSON string after its opening quote, up to the closing
quote, and what follows. A surrogate pair of `\u` escapes is one character; a
lone surrogate escape, which a Lean string cannot hold, is read as U+FFFD. The
first argument bounds the number of characters read. -/
def parseStringBody : Nat → List Char → Option (List Char × List Char)
  | 0, _ => none
  | _ + 1, [] => none
  | fuel + 1, c :: rest =>
    if c = '"' then some ([], rest)
    else if c = '\\' then
      match rest with
      | [] => none
      | e :: rest1 =>
        if e = 'u' then
          match rest1 with
          | a1 :: a2 :: a3 :: a4 :: rest2 =>
            match hex4 a1 a2 a3 a4 with
            | none => none
            | some u =>
              if 0xD800 ≤ u ∧ u < 0xDC00 then
                match takeLowSurrogate rest2 with
                | some (lo, rest3) =>
                  (parseStringBody fuel rest3).map (fun r =>
                    (Char.ofNat (0x10000 + (u - 0xD800) * 0x400 + (lo - 0xDC00)) :: r.1, r.2))
                | none =>
                  (parseStringBody fuel rest2).map (fun r => (Char.ofNat 0xFFFD :: r.1, r.2))
              else if 0xDC00 ≤ u ∧ u < 0xE000 then
                (parseStringBody fuel rest2).map (fun r => (Char.ofNat 0xFFFD :: r.1, r.2))
              else
                (parseStringBody fuel rest2).map (fun r => (Char.ofNat u :: r.1, r.2))
          | _ => none
        else
          match unescapeChar e with
          | some ch => (parseStringBody fuel rest1).map (fun r => (ch :: r.1, r.2))
          | none => none
    else if c.toNat < 32 then none
    else (parseStringBody fuel rest).map (fun r => (c :: r.1, r.2))

/-- A JSON string after its opening quote. -/
def parseString (cs : List Char) : Option (String × List Char) :=
  (parseStringBody (cs.length + 1) cs).map (fun r => (String.mk r.1, r.2))

/-- The fraction of a JSON number: its digits and what follows; `none` when a
point is not followed by a digit. -/
def parseFraction (cs : List Char) : Option (List Char × List Char) :=
  match cs with
  | [] => some ([], [])
  | c :: r =>
    if c = '.' then
      let fp := takeDigits r
      if fp.1 = [] then none else some fp
    else some ([], cs)

/-- The exponent of a JSON number and what follows; `none` when `e` is not
followed by an integer. -/
def parseExponent (cs : List Char) : Option (Int × List Char) :=
  match cs with
  | [] => some (0, [])
  | c :: t =>
    if c = 'e' ∨ c = 'E' then
      let sg := takeSign t
      let ds := takeDigits sg.2
      if ds.1 = [] then none
      else some ((if sg.1 then -(digitsToNat ds.1 : Int) else (digitsToNat ds.1 : Int)), ds.2)
    else some (0, cs)

/-- A JSON number: optional minus, integer part without a superfluous leading
zero, optional fraction, optional exponent. -/
def parseNumber (cs : List Char) : Option (JSValue × List Char) :=
  let sg : Bool × List Char :=
    match cs with
    | [] => (false, [])
    | c :: t => if c = '-' then (true, t) else (false, cs)
  let ip := takeDigits sg.2
  if ip.1 = [] then none
  else if ip.1.head? = some '0' ∧ 1 < ip.1.length then none
  else
    match parseFraction ip.2 with
    | none => none
    | some (fp, r2) =>
      match parseExponent r2 with
      | none => none
      | some (e, r3) =>
        let v := decValue (digitsToNat (ip.1 ++ fp)) (e - (fp.length : Int))
        some (JSValue.num (JSNum.fin (if sg.1 then -v else v)), r3)

/-- The members of an object with the member `k` set to `v`: a key already
present keeps its place and takes the new value. -/
def setMember : List (String × JSValue) → String → JSValue → List (String × JSValue)
  | [], k, v => [(k, v)]
  | m :: ms, k, v => if m.1 = k then (k, v) :: ms else m :: setMember ms k v

mutual
/-- One JSON value at the head of the input, and what follows it. The first
argument bounds the nesting and the number of elements. -/
def parseValue : Nat → List Char → Option (JSValue × List Char)
  | 0, _ => none
  | fuel + 1, cs =>
    match skipWS cs with
    | [] => none
    | c :: r =>
      if c = '{' then
        match skipWS r with
        | [] => none
        | d :: r1 =>
          if d = '}' then some (JSValue.obj [], r1) else parseMembers fuel (d :: r1) []
      else if c = '[' then
        match skipWS r with
        | [] => none
        | d :: r1 =>
          if d = ']' then some (JSValue.arr [], r1)
          else (parseElements fuel (d :: r1)).map (fun x => (JSValue.arr x.1, x.2))
      else if c = '"' then (parseString r).map (fun x => (JSValue.str x.1, x.2))
      else if ['t', 'r', 'u', 'e'].isPrefixOf (c :: r) then
        some (JSValue.bool true, (c :: r).drop 4)
      else if ['f', 'a', 'l', 's', 'e'].isPrefixOf (c :: r) then
        some (JSValue.bool false, (c :: r).drop 5)
      else if ['n', 'u', 'l', 'l'].isPrefixOf (c :: r) then
        some (JSValue.null, (c :: r).drop 4)
      else parseNumber (c :: r)
/-- The elements of a non-empty array up to the closing bracket. -/
def parseElements : Nat → List Char → Option (List JSValue × List Char)
  | 0, _ => none
  | fuel + 1, cs =>
    match parseValue fuel cs with
    | none => none
    | some (v, r) =>
      match skipWS r with
      | [] => none
      | c :: r1 =>
        if c = ',' then (parseElements fuel r1).map (fun x => (v :: x.1, x.2))
        else if c = ']' then some ([v], r1)
        else none
/-- The members of a non-empty object up to the closing brace, added to the
members read so far. -/
def parseMembers : Nat → List Char → List (String × JSValue) → Option (JSValue × List Char)
  | 0, _, _ => none
  | fuel + 1, cs, acc =>
    match skipWS cs with
    | [] => none
    | q :: r =>
      if q = '"' then
        match parseString r with
        | none => none
        | some (k, r1) =>
          match skipWS r1 with
          | [] => none
          | c :: r2 =>
            if c = ':' then
              match parseValue fuel r2 with
              | none => none
              | some (v, r3) =>
                match skipWS r3 with
                | [] => none
                | d :: r4 =>
                  if d = ',' then parseMembers fuel r4 (setMember acc k v)
                  else if d = '}' then some (JSValue.obj (setMember acc k v), r4)
                  else none
            else none
      else none
end

/-- The call `JSON.parse(text)`: `none` stands for the `SyntaxError` it throws. Every
step of the parser that spends fuel twice consumes a character, so the fuel
is never what makes a text fail. -/
def JSON.parse (text : String) : Option JSValue :=
  match parseValue (2 * text.length + 2) text.toList with
  | some (v, rest) => if skipWS rest = [] then some v else none
  | none => none

/-! ## Persistence -/

/-- The catalog as the array that `setProducts(productList)` stores. -/
def productListJS : List JSValue := productList.map LineItem.toJS

/-- The mount effect: the array given to `setProducts`, from the value that
`localStorage.getItem("cartProducts")` returned (`none` is `null`). -/
def loadInitialState (storedCart : Option String) : List JSValue :=
  match storedCart with
  | none => productListJS
  | some s =>
    if truthy s then
      match JSON.parse s with
      | some parsedCart =>
        match parsedCart with
        | JSValue.arr xs => if 0 < xs.length then xs else productListJS
        | _ => productListJS
      | none => productListJS
    else productListJS

/-- The persist effect: the text written under `"cartProducts"`. -/
def persist (products : List LineItem) : String :=
  JSON.stringify (JSValue.arr (products.map LineItem.toJS))

/-! ## Binary64 arithmetic

The source computes `subTotal`, `discountVal` and `finalTotal` in binary64:
every operation returns the exact result rounded to the nearest binary64 value,
ties to even. The definitions of this section round after every operation, and
`Binary64.parseFloat` rounds the value of the numeral. -/

namespace Binary64

/-- The number of halvings that bring `n` below 2: the floor of its binary
logarithm (0 for 0 and 1); the first argument bounds the number of steps. -/
def log2Fuel : Nat → Nat → Nat
  | 0, _ => 0
  | fuel + 1, n => if 2 ≤ n then log2Fuel fuel (n / 2) + 1 else 0

/-- The floor of the binary logarithm of the positive rational `n / d`. -/
def floorLog2 (n d : Nat) : Int :=
  let e0 : Int := (log2Fuel n n : Int) - (log2Fuel d d : Int)
  if d * 2 ^ e0.toNat ≤ n * 2 ^ (-e0).toNat then e0 else e0 - 1

/-- The integer nearest to `n / d`, the even one of two that are equally near. -/
def roundHalfEven (n d : Nat) : Nat :=
  if 2 * (n % d) < d then n / d
  else if d < 2 * (n % d) then n / d + 1
  else if (n / d) % 2 = 0 then n / d else n / d + 1

/-- The exponent of the unit in the last place of the binary64 values around
the positive rational `n / d`: 52 below its binary logarithm, and at least
-1074 (the subnormal range). -/
def ulpExponent (n d : Nat) : Int := max (floorLog2 n d - 52) (-1074)

/-- The significand of the binary64 value nearest to the positive rational
`n / d`, in units of `2 ^ ulpExponent n d`. -/
def significand (n d : Nat) : Nat :=
  roundHalfEven (n * 2 ^ (-(ulpExponent n d)).toNat) (d * 2 ^ (ulpExponent n d).toNat)

/-- The binary64 value nearest to a rational, ties to even; an infinity when
the rounded magnitude reaches `2 ^ 1024`, that is the significand `2 ^ 53` at
the exponent 971 or anything at a larger exponent. -/
def round64 (q : ℚ) : JSNum :=
  if q = 0 then JSNum.fin 0
  else if 971 < ulpExponent q.num.natAbs q.den ∨
      (ulpExponent q.num.natAbs q.den = 971 ∧ 2 ^ 53 ≤ significand q.num.natAbs q.den) then
    (if 0 < q then JSNum.pinf else JSNum.ninf)
  else if 0 < q then
    JSNum.fin (mkRat
      ((significand q.num.natAbs q.den * 2 ^ (ulpExponent q.num.natAbs q.den).toNat : Nat) : Int)
      (2 ^ (-(ulpExponent q.num.natAbs q.den)).toNat))
  else
    JSNum.fin (-(mkRat
      ((significand q.num.natAbs q.den * 2 ^ (ulpExponent q.num.natAbs q.den).toNat : Nat) : Int)
      (2 ^ (-(ulpExponent q.num.natAbs q.den)).toNat)))

/-- A number rounded to binary64; NaN and the infinities are binary64 values. -/
def roundNum : JSNum → JSNum
  | JSNum.fin q => round64 q
  | x => x

/-- The `+` operator in binary64. -/
def add (a b : JSNum) : JSNum := roundNum (JSNum.add a b)

/-- The `-` operator in binary64. -/
def sub (a b : JSNum) : JSNum := roundNum (JSNum.sub a b)

/-- The `*` operator in binary64. -/
def mul (a b : JSNum) : JSNum := roundNum (JSNum.mul a b)

/-- The `/` operator in binary64. -/
def div (a b : JSNum) : JSNum := roundNum (JSNum.div a b)

/-- The global `parseFloat` in binary64: the binary64 value nearest to the
value of the numeral. -/
def parseFloat (s : String) : JSNum := roundNum (Cart.parseFloat s)

/-- The state after `handleDiscountChange(value)`, with `parseFloat` in
binary64. -/
def handleDiscountChange (st : CartState) (value : String) : CartState :=
  let parsed := parseFloat value
  { st with
    discount := value
    discountError :=
      if parsed.isNaN || JSNum.lt parsed (JSNum.fin 0) || JSNum.gt parsed (JSNum.fin 100)
      then discountMessage else "" }

/-- The derived value `subTotal` in binary64. -/
def subTotal (products : List LineItem) : JSNum :=
  products.foldl (fun acc curr => add acc (mul curr.price curr.quantity)) (JSNum.fin 0)

/-- The derived value `discountVal` in binary64. -/
def discountVal (st : CartState) : JSNum :=
  if truthy st.discount && !(truthy st.discountError) then
    div (mul (subTotal st.products) (parseFloat st.discount)) (JSNum.fin 100)
  else JSNum.fin 0

/-- The derived value `finalTotal` in binary64. -/
def finalTotal (st : CartState) : JSNum :=
  sub (subTotal st.products) (discountVal st)

end Binary64

/-! ## Facts about numbers -/

theorem JSNum.sub_zero (a : JSNum) : JSNum.sub a (JSNum.fin 0) = a := by
  cases a <;> simp [JSNum.sub, JSNum.neg, JSNum.add]

theorem JSNum.ge_fin (a b : ℚ) : JSNum.ge (JSNum.fin a) (JSNum.fin b) = decide (b ≤ a) := by
  by_cases h : a < b
  · simp [JSNum.ge, JSNum.lt, h]
  · simp [JSNum.ge, JSNum.lt, h, not_lt.mp h]

theorem JSNum.lt_false_of_ne_nan {q : JSNum} (hq : q ≠ JSNum.nan)
    (h : JSNum.lt q (JSNum.fin 1) = false) : JSNum.ge q (JSNum.fin 1) = true := by
  cases q <;> simp_all [JSNum.ge, JSNum.lt]

theorem JSNum.ge_true_lt_false {q : JSNum} (h : JSNum.ge q (JSNum.fin 1) = true) :
    JSNum.lt q (JSNum.fin 1) = false := by
  cases q <;> simp_all [JSNum.ge, JSNum.lt]

theorem parseFloat_empty : parseFloat "" = JSNum.nan := by decide

theorem truthy_iff (s : String) : truthy s = true ↔ s ≠ "" := by
  simp [truthy]

/-! ## Quantity edits -/

/-- C3. Quantity guard of `handleQuantityChange`: when `newQty` coerces to a
number `q` (not NaN), `q < 1` leaves the products unchanged; `q >= 1` keeps
length and order, gives every item with the given id the quantity `q` with id,
name and price unchanged, keeps every other item identical, and therefore leaves
the products unchanged when no item has the id. -/
theorem handleQuantityChange_guard (products : List LineItem) (id : Int) (newQty : JSPrim)
    (q : JSNum) (hq : toNumber newQty = q) (hnum : q ≠ JSNum.nan) :
    (JSNum.lt q (JSNum.fin 1) = true → handleQuantityChange products id newQty = products) ∧
    (JSNum.ge q (JSNum.fin 1) = true →
      (handleQuantityChange products id newQty).length = products.length ∧
      (∀ (i : Nat) (p : LineItem), products[i]? = some p →
        ∃ r : LineItem, (handleQuantityChange products id newQty)[i]? = some r ∧
          r.id = p.id ∧ r.name = p.name ∧ r.price = p.price ∧
          (p.id = id → r.quantity = q) ∧ (p.id ≠ id → r = p)) ∧
      ((∀ p ∈ products, p.id ≠ id) → handleQuantityChange products id newQty = products)) := by
  subst hq
  refine ⟨fun hlt => by simp [handleQuantityChange, hlt], fun hge => ?_⟩
  have hlt := JSNum.ge_true_lt_false hge
  refine ⟨by simp [handleQuantityChange, hlt], ?_, ?_⟩
  · intro i p hp
    by_cases hid : p.id = id
    · exact ⟨{ p with quantity := toNumber newQty },
        by simp [handleQuantityChange, hlt, hp, hid], rfl, rfl, rfl, fun _ => rfl,
        fun hne => absurd hid hne⟩
    · exact ⟨p, by simp [handleQuantityChange, hlt, hp, hid], rfl, rfl, rfl,
        fun he => absurd he hid, fun _ => rfl⟩
  · intro hno
    simp only [handleQuantityChange, hlt, Bool.false_eq_true, if_false]
    conv_rhs => rw [← List.map_id products]
    exact List.map_congr_left (fun p hp => by simp [hno p hp])

/-- Witness for C3: the string "3" on the default catalog. -/
theorem handleQuantityChange_guard_witness :
    toNumber (JSPrim.str "3") = JSNum.fin 3 ∧ JSNum.fin 3 ≠ JSNum.nan ∧
    (JSNum.ge (JSNum.fin 3) (JSNum.fin 1) = true →
      (handleQuantityChange productList 1 (JSPrim.str "3")).length = productList.length ∧
      (∀ (i : Nat) (p : LineItem), productList[i]? = some p →
        ∃ r : LineItem, (handleQuantityChange productList 1 (JSPrim.str "3"))[i]? = some r ∧
          r.id = p.id ∧ r.name = p.name ∧ r.price = p.price ∧
          (p.id = 1 → r.quantity = JSNum.fin 3) ∧ (p.id ≠ 1 → r = p)) ∧
      ((∀ p ∈ productList, p.id ≠ 1) →
        handleQuantityChange productList 1 (JSPrim.str "3") = productList)) :=
  ⟨by with_unfolding_all decide, by decide,
    (handleQuantityChange_guard productList 1 (JSPrim.str "3") (JSNum.fin 3)
      (by with_unfolding_all decide) (by decide)).2⟩

/-- C4, as stated, fails: on the default catalog (all quantities 1) the
non-numeric value "abc" passes the guard and stores NaN as the quantity of
item 1, so the edit is not a no-op and `quantity >= 1` no longer holds. -/
theorem quantity_invariant_fails_on_non_numeric :
    (∀ p ∈ productList, JSNum.ge p.quantity (JSNum.fin 1) = true) ∧
    toNumber (JSPrim.str "abc") = JSNum.nan ∧
    handleQuantityChange productList 1 (JSPrim.str "abc") ≠ productList ∧
    ¬ (∀ p ∈ handleQuantityChange productList 1 (JSPrim.str "abc"),
        JSNum.ge p.quantity (JSNum.fin 1) = true) := by
  refine ⟨?_, by decide, by decide, ?_⟩
  · intro p hp
    simp only [productList, List.mem_cons, List.mem_singleton, List.not_mem_nil, or_false] at hp
    rcases hp with rfl | rfl <;> simp [JSNum.ge_fin]
  · intro h
    have h1 := h { id := 1, name := "Product A", price := JSNum.fin 50, quantity := JSNum.nan }
      (by decide)
    simp [JSNum.ge] at h1

/-- C4, amended. If every item has quantity `>= 1`, then after
`handleQuantityChange(id, raw)` for any id and any raw value that coerces to a
number (not NaN), and after `handleRemoveProduct(id)` for any id, every item
still has quantity `>= 1`. -/
theorem quantity_invariant_preserved (products : List LineItem) (id : Int) (raw : JSPrim)
    (hinv : ∀ p ∈ products, JSNum.ge p.quantity (JSNum.fin 1) = true) :
    (toNumber raw ≠ JSNum.nan →
      ∀ p ∈ handleQuantityChange products id raw, JSNum.ge p.quantity (JSNum.fin 1) = true) ∧
    (∀ p ∈ handleRemoveProduct products id, JSNum.ge p.quantity (JSNum.fin 1) = true) := by
  constructor
  · intro hnum p hp
    unfold handleQuantityChange at hp
    by_cases hlt : JSNum.lt (toNumber raw) (JSNum.fin 1) = true
    · rw [if_pos hlt] at hp
      exact hinv p hp
    · rw [if_neg hlt, List.mem_map] at hp
      obtain ⟨p0, hp0, rfl⟩ := hp
      by_cases hid : p0.id = id
      · simpa [hid] using JSNum.lt_false_of_ne_nan hnum (by simpa using hlt)
      · simpa [hid] using hinv p0 hp0
  · intro p hp
    exact hinv p (List.mem_of_mem_filter hp)

/-- Witness for the amended C4: the default catalog, item 1, the string "3". -/
theorem quantity_invariant_preserved_witness :
    (∀ p ∈ productList, JSNum.ge p.quantity (JSNum.fin 1) = true) ∧
    (toNumber (JSPrim.str "3") ≠ JSNum.nan →
      ∀ p ∈ handleQuantityChange productList 1 (JSPrim.str "3"),
        JSNum.ge p.quantity (JSNum.fin 1) = true) ∧
    (∀ p ∈ handleRemoveProduct productList 1, JSNum.ge p.quantity (JSNum.fin 1) = true) :=
  have h : ∀ p ∈ productList, JSNum.ge p.quantity (JSNum.fin 1) = true := by
    intro p hp
    simp only [productList, List.mem_cons, List.mem_singleton, List.not_mem_nil, or_false] at hp
    rcases hp with rfl | rfl <;> simp [JSNum.ge_fin]
  ⟨h, quantity_invariant_preserved productList 1 (JSPrim.str "3") h⟩

/-! ## Removal -/

/-- C8. `handleRemoveProduct` keeps precisely the items whose id differs from
the given id, each unchanged, with their multiplicity and in their original
relative order; when no item has the id the products are unchanged. -/
theorem handleRemoveProduct_filter (products : List LineItem) (id : Int) :
    List.Sublist (handleRemoveProduct products id) products ∧
    (∀ p : LineItem, p ∈ handleRemoveProduct products id ↔ p ∈ products ∧ p.id ≠ id) ∧
    (∀ p : LineItem, p.id ≠ id →
      (handleRemoveProduct products id).count p = products.count p) ∧
    ((∀ p ∈ products, p.id ≠ id) → handleRemoveProduct products id = products) := by
  refine ⟨List.filter_sublist products, ?_, ?_, ?_⟩
  · intro p
    simp [handleRemoveProduct, List.mem_filter]
  · intro p hp
    unfold handleRemoveProduct
    rw [List.count_filter]
    simpa using hp
  · intro h
    unfold handleRemoveProduct
    rw [List.filter_eq_self]
    intro p hp
    simpa using h p hp

theorem foldl_remove_nil (ids : List Int) :
    ids.foldl handleRemoveProduct [] = [] := by
  induction ids with
  | nil => rfl
  | cons i is ih => simpa [List.foldl_cons, handleRemoveProduct] using ih

theorem mem_foldl_remove (ids : List Int) (products : List LineItem) (p : LineItem)
    (hp : p ∈ ids.foldl handleRemoveProduct products) : p ∈ products ∧ p.id ∉ ids := by
  induction ids generalizing products with
  | nil => exact ⟨hp, List.not_mem_nil _⟩
  | cons i is ih =>
    have h := ih (handleRemoveProduct products i) hp
    have hmem : p ∈ products ∧ p.id ≠ i := by
      simpa [handleRemoveProduct, List.mem_filter] using h.1
    refine ⟨hmem.1, ?_⟩
    intro hin
    rcases List.mem_cons.mp hin with h1 | h1
    · exact hmem.2 h1
    · exact h.2 h1

/-- C9. Removal totality: removing, one at a time and in any order, a list of
ids that contains the id of every item leaves the empty cart, and the subtotal
of the empty cart is 0. -/
theorem removal_totality (products : List LineItem) (ids : List Int)
    (hall : ∀ p ∈ products, p.id ∈ ids) :
    ids.foldl handleRemoveProduct products = [] ∧ subTotal [] = JSNum.fin 0 := by
  refine ⟨?_, rfl⟩
  apply List.eq_nil_iff_forall_not_mem.mpr
  intro p hp
  have h := mem_foldl_remove ids products p hp
  exact h.2 (hall p h.1)

/-- Witness for C9: the default catalog, its ids removed last first. -/
theorem removal_totality_witness :
    (∀ p ∈ productList, p.id ∈ [2, 1]) ∧
    [2, 1].foldl handleRemoveProduct productList = [] ∧ subTotal [] = JSNum.fin 0 :=
  ⟨by decide, removal_totality productList [2, 1] (by decide)⟩

/-! ## Discount validation and pricing -/

theorem discountMessage_ne_empty : discountMessage ≠ "" := by decide

theorem discountError_cases (st : CartState) (raw : String) :
    ((∃ v : ℚ, parseFloat raw = JSNum.fin v ∧ 0 ≤ v ∧ v ≤ 100) ∧
      (handleDiscountChange st raw).discountError = "") ∨
    ((¬ ∃ v : ℚ, parseFloat raw = JSNum.fin v ∧ 0 ≤ v ∧ v ≤ 100) ∧
      (handleDiscountChange st raw).discountError = discountMessage) := by
  unfold handleDiscountChange
  cases hp : parseFloat raw with
  | fin q =>
    by_cases h0 : q < 0
    · have : ¬ (0 ≤ q) := not_le.mpr h0
      simp [JSNum.isNaN, JSNum.lt, JSNum.gt, h0, this]
    · by_cases h1 : 100 < q
      · have : ¬ (q ≤ 100) := not_le.mpr h1
        simp [JSNum.isNaN, JSNum.lt, JSNum.gt, h1, this]
      · simp [JSNum.isNaN, JSNum.lt, JSNum.gt, h0, h1, not_lt.mp h0, not_lt.mp h1]
  | nan => simp [JSNum.isNaN]
  | pinf => simp [JSNum.isNaN, JSNum.lt, JSNum.gt]
  | ninf => simp [JSNum.isNaN, JSNum.lt, JSNum.gt]

theorem discountError_of_valid (st : CartState) (raw : String)
    (h : ∃ v : ℚ, parseFloat raw = JSNum.fin v ∧ 0 ≤ v ∧ v ≤ 100) :
    (handleDiscountChange st raw).discountError = "" := by
  rcases discountError_cases st raw with ⟨_, h1⟩ | ⟨h1, _⟩
  · exact h1
  · exact absurd h h1

theorem discountError_of_invalid (st : CartState) (raw : String)
    (h : ¬ ∃ v : ℚ, parseFloat raw = JSNum.fin v ∧ 0 ≤ v ∧ v ≤ 100) :
    (handleDiscountChange st raw).discountError = discountMessage := by
  rcases discountError_cases st raw with ⟨h1, _⟩ | ⟨_, h1⟩
  · exact absurd h1 h
  · exact h1

/-- C5, as stated, fails: for the empty raw value `handleDiscountChange` sets
`discountError` to the validation message, although the raw value is empty. -/
theorem empty_discount_sets_error :
    (handleDiscountChange ⟨productList, "", ""⟩ "").discountError = discountMessage ∧
    ¬ ((handleDiscountChange ⟨productList, "", ""⟩ "").discountError ≠ "" ↔
        (("" : String) ≠ "" ∧
          ¬ ∃ v : ℚ, parseFloat "" = JSNum.fin v ∧ 0 ≤ v ∧ v ≤ 100)) := by
  have h : (handleDiscountChange ⟨productList, "", ""⟩ "").discountError = discountMessage := by
    decide
  refine ⟨h, ?_⟩
  rw [h]
  intro hiff
  exact (hiff.mp discountMessage_ne_empty).1 rfl

/-- C5, amended. After `handleDiscountChange(rawValue)`, for every raw string,
`discount` equals the raw value, and `discountError` is non-empty (it is the
validation message) if and only if the raw value does not parse to a number in
[0,100]; the empty raw value does not parse, so it sets `discountError` too. -/
theorem discountError_iff_not_in_range (st : CartState) (raw : String) :
    (handleDiscountChange st raw).discount = raw ∧
    (handleDiscountChange st raw).products = st.products ∧
    ((handleDiscountChange st raw).discountError ≠ "" ↔
      ¬ ∃ v : ℚ, parseFloat raw = JSNum.fin v ∧ 0 ≤ v ∧ v ≤ 100) ∧
    ((handleDiscountChange st raw).discountError ≠ "" →
      (handleDiscountChange st raw).discountError = discountMessage) ∧
    (handleDiscountChange st "").discountError = discountMessage := by
  refine ⟨rfl, rfl, ?_, ?_, ?_⟩
  · by_cases h : ∃ v : ℚ, parseFloat raw = JSNum.fin v ∧ 0 ≤ v ∧ v ≤ 100
    · simp [discountError_of_valid st raw h, h]
    · simp [discountError_of_invalid st raw h, h, discountMessage_ne_empty]
  · by_cases h : ∃ v : ℚ, parseFloat raw = JSNum.fin v ∧ 0 ≤ v ∧ v ≤ 100
    · simp [discountError_of_valid st raw h]
    · simp [discountError_of_invalid st raw h]
  · apply discountError_of_invalid
    rintro ⟨v, hv, _⟩
    rw [parseFloat_empty] at hv
    exact JSNum.noConfusion hv

theorem productList_fin : ∀ p ∈ productList, ∃ a b : ℚ, p.price = JSNum.fin a ∧ 0 ≤ a ∧
    p.quantity = JSNum.fin b ∧ 1 ≤ b := by
  intro p hp
  simp only [productList, List.mem_cons, List.mem_singleton, List.not_mem_nil, or_false] at hp
  rcases hp with rfl | rfl
  · exact ⟨50, 1, rfl, by norm_num, rfl, le_rfl⟩
  · exact ⟨30, 1, rfl, by norm_num, rfl, le_rfl⟩

/-- C7. An invalid discount fails closed: for every cart and every non-empty
raw value that does not parse to a number in [0,100] (unparseable, or out of
range), `handleDiscountChange` sets `discountError` to the validation message,
`discountVal` is 0 and `finalTotal` equals `subTotal`. -/
theorem invalid_discount_fails_closed (st : CartState) (raw : String) (_hraw : raw ≠ "")
    (hbad : ¬ ∃ v : ℚ, parseFloat raw = JSNum.fin v ∧ 0 ≤ v ∧ v ≤ 100) :
    (handleDiscountChange st raw).discountError = discountMessage ∧
    discountVal (handleDiscountChange st raw) = JSNum.fin 0 ∧
    finalTotal (handleDiscountChange st raw) = subTotal (handleDiscountChange st raw).products ∧
    (handleDiscountChange st raw).products = st.products := by
  have herr : (handleDiscountChange st raw).discountError = discountMessage :=
    discountError_of_invalid st raw hbad
  have hval : discountVal (handleDiscountChange st raw) = JSNum.fin 0 := by
    unfold discountVal
    rw [herr]
    have : truthy discountMessage = true := by decide
    simp [this]
  refine ⟨herr, hval, ?_, rfl⟩
  unfold finalTotal
  rw [hval, JSNum.sub_zero]

theorem parseFloat_150 : parseFloat "150" = JSNum.fin 150 := by with_unfolding_all decide

theorem parseFloat_abc : parseFloat "abc" = JSNum.nan := by decide

/-- Witness for C7: the default catalog with the out-of-range discount "150",
and with the unparseable discount "abc". -/
theorem invalid_discount_fails_closed_witness :
    ("150" : String) ≠ "" ∧
    (¬ ∃ v : ℚ, parseFloat "150" = JSNum.fin v ∧ 0 ≤ v ∧ v ≤ 100) ∧
    ((handleDiscountChange ⟨productList, "", ""⟩ "150").discountError = discountMessage ∧
      discountVal (handleDiscountChange ⟨productList, "", ""⟩ "150") = JSNum.fin 0 ∧
      finalTotal (handleDiscountChange ⟨productList, "", ""⟩ "150")
        = subTotal (handleDiscountChange ⟨productList, "", ""⟩ "150").products ∧
      (handleDiscountChange ⟨productList, "", ""⟩ "150").products = productList) ∧
    ((handleDiscountChange ⟨productList, "", ""⟩ "abc").discountError = discountMessage ∧
      discountVal (handleDiscountChange ⟨productList, "", ""⟩ "abc") = JSNum.fin 0 ∧
      finalTotal (handleDiscountChange ⟨productList, "", ""⟩ "abc")
        = subTotal (handleDiscountChange ⟨productList, "", ""⟩ "abc").products ∧
      (handleDiscountChange ⟨productList, "", ""⟩ "abc").products = productList) :=
  have hbad : ¬ ∃ v : ℚ, parseFloat "150" = JSNum.fin v ∧ 0 ≤ v ∧ v ≤ 100 := by
    rintro ⟨v, hv, _, h100⟩
    rw [parseFloat_150] at hv
    have hv' : (150 : ℚ) = v := JSNum.fin.inj hv
    rw [← hv'] at h100
    norm_num at h100
  have hbad' : ¬ ∃ v : ℚ, parseFloat "abc" = JSNum.fin v ∧ 0 ≤ v ∧ v ≤ 100 := by
    rintro ⟨v, hv, _, _⟩
    rw [parseFloat_abc] at hv
    exact JSNum.noConfusion hv
  ⟨by decide, hbad,
    invalid_discount_fails_closed ⟨productList, "", ""⟩ "150" (by decide) hbad,
    invalid_discount_fails_closed ⟨productList, "", ""⟩ "abc" (by decide) hbad'⟩

/-- C10. Worked scenario on the default catalog: with the empty discount the
subtotal is 80, the discount 0 and the total 80; once the quantity of item 1 is
set to 3 the subtotal is 180; and on the quantity-1 cart with the discount "10"
the discount is 8 and the total 72. -/
theorem pricing_scenario :
    subTotal productList = JSNum.fin 80 ∧
    discountVal ⟨productList, "", ""⟩ = JSNum.fin 0 ∧
    finalTotal ⟨productList, "", ""⟩ = JSNum.fin 80 ∧
    subTotal (handleQuantityChange productList 1 (JSPrim.str "3")) = JSNum.fin 180 ∧
    subTotal (handleQuantityChange productList 1 (JSPrim.num (JSNum.fin 3))) = JSNum.fin 180 ∧
    (handleDiscountChange ⟨productList, "", ""⟩ "10").discountError = "" ∧
    discountVal (handleDiscountChange ⟨productList, "", ""⟩ "10") = JSNum.fin 8 ∧
    finalTotal (handleDiscountChange ⟨productList, "", ""⟩ "10") = JSNum.fin 72 := by
  refine ⟨?_, ?_, ?_, ?_, ?_, ?_, ?_, ?_⟩ <;> with_unfolding_all decide

/-! ## Loading the persisted snapshot -/

theorem loadInitialState_some (s : String) :
    loadInitialState (some s) =
      if truthy s then
        match JSON.parse s with
        | some parsedCart =>
          match parsedCart with
          | JSValue.arr xs => if 0 < xs.length then xs else productListJS
          | _ => productListJS
        | none => productListJS
      else productListJS := rfl

/-- C1. `loadInitialState` falls back to the default catalog on every unusable
snapshot: a raw value that is absent, is the empty string, fails to
deserialize, deserializes to something that is not an array, or deserializes
to the empty array, gives exactly the catalog, in its order. -/
theorem loadInitialState_fallback (storedCart : Option String)
    (h : storedCart = none ∨ storedCart = some "" ∨
      (∃ s, storedCart = some s ∧ JSON.parse s = none) ∨
      (∃ s v, storedCart = some s ∧ JSON.parse s = some v ∧ ∀ xs, v ≠ JSValue.arr xs) ∨
      (∃ s, storedCart = some s ∧ JSON.parse s = some (JSValue.arr []))) :
    loadInitialState storedCart = productList.map LineItem.toJS ∧
    productList =
      [ { id := 1, name := "Product A", price := JSNum.fin 50, quantity := JSNum.fin 1 },
        { id := 2, name := "Product B", price := JSNum.fin 30, quantity := JSNum.fin 1 } ] := by
  refine ⟨?_, rfl⟩
  rcases h with h | h | ⟨s, h, hp⟩ | ⟨s, v, h, hp, hv⟩ | ⟨s, h, hp⟩
  · subst h; rfl
  · subst h; rfl
  · subst h
    rw [loadInitialState_some, hp]
    split <;> rfl
  · subst h
    rw [loadInitialState_some, hp]
    cases v with
    | arr xs => exact absurd rfl (hv xs)
    | _ => split <;> rfl
  · subst h
    rw [loadInitialState_some, hp]
    split <;> rfl

/-- Witness for C1: a text that does not deserialize. -/
theorem loadInitialState_fallback_witness :
    JSON.parse "\x7boops" = none ∧
    loadInitialState (some "\x7boops") = productList.map LineItem.toJS ∧
    productList =
      [ { id := 1, name := "Product A", price := JSNum.fin 50, quantity := JSNum.fin 1 },
        { id := 2, name := "Product B", price := JSNum.fin 30, quantity := JSNum.fin 1 } ] :=
  ⟨by rfl, loadInitialState_fallback (some "\x7boops") (Or.inr (Or.inr (Or.inl ⟨_, rfl, by rfl⟩)))⟩

theorem loadInitialState_examples :
    loadInitialState none = productListJS ∧
    loadInitialState (some "") = productListJS ∧
    loadInitialState (some "\x7b\"id\":1\x7d") = productListJS ∧
    loadInitialState (some "42") = productListJS ∧
    loadInitialState (some " [ ] ") = productListJS ∧
    loadInitialState (some "[7]") = [JSValue.num (JSNum.fin 7)] := by
  refine ⟨rfl, rfl, ?_, ?_, ?_, ?_⟩ <;> with_unfolding_all rfl

/-- C2, as stated, fails: the empty cart is persisted as `[]`, and loading that
text gives the default catalog, not the empty cart. A quantity that is NaN does
not come back either: it is written as `null`. -/
theorem round_trip_fails_on_empty_cart :
    persist [] = "[]" ∧
    loadInitialState (some (persist [])) = productList.map LineItem.toJS ∧
    loadInitialState (some (persist [])) ≠ ([] : List LineItem).map LineItem.toJS ∧
    loadInitialState (some (persist
      [{ id := 1, name := "A", price := JSNum.fin 50, quantity := JSNum.nan }])) ≠
      ([{ id := 1, name := "A", price := JSNum.fin 50, quantity := JSNum.nan }] :
        List LineItem).map LineItem.toJS := by
  have h : loadInitialState (some (persist [])) = productList.map LineItem.toJS := by rfl
  have h2 : loadInitialState (some (persist
      [{ id := 1, name := "A", price := JSNum.fin 50, quantity := JSNum.nan }])) =
      [JSValue.obj [("id", JSValue.num (JSNum.fin 1)), ("name", JSValue.str "A"),
        ("price", JSValue.num (JSNum.fin 50)), ("quantity", JSValue.null)]] := by
    with_unfolding_all rfl
  refine ⟨by decide, h, ?_, ?_⟩
  · rw [h]
    simp [productList]
  · rw [h2]
    simp [LineItem.toJS]

/-! ## Strings through `QuoteJSONString` and back -/

theorem char_eq_of_toNat {c : Char} {n : Nat} (h : c.toNat = n) : c = Char.ofNat n := by
  subst h
  exact (Char.ofNat_toNat c).symm

theorem hex4_control : ∀ n : Nat, n < 32 →
    hex4 '0' '0' (hexDigitChar (n / 16)) (hexDigitChar (n % 16)) = some n := by
  decide

theorem parseStringBody_escapeChar (c : Char) (fuel : Nat) (rest : List Char) :
    parseStringBody (fuel + 1) (escapeChar c ++ rest) =
      (parseStringBody fuel rest).map (fun r => (c :: r.1, r.2)) := by
  unfold escapeChar
  split_ifs with h1 h2 h3 h4 h5 h6 h7 h8
  · subst h1; simp [parseStringBody, unescapeChar]
  · subst h2; simp [parseStringBody, unescapeChar]
  · have := char_eq_of_toNat h3; subst this; simp [parseStringBody, unescapeChar]
  · have := char_eq_of_toNat h4; subst this; simp [parseStringBody, unescapeChar]
  · have := char_eq_of_toNat h5; subst this; simp [parseStringBody, unescapeChar]
  · have := char_eq_of_toNat h6; subst this; simp [parseStringBody, unescapeChar]
  · have := char_eq_of_toNat h7; subst this; simp [parseStringBody, unescapeChar]
  · have hx := hex4_control c.toNat h8
    have hlt : ¬ (55296 ≤ c.toNat) := by omega
    have hlt2 : ¬ (56320 ≤ c.toNat) := by omega
    simp [parseStringBody, hx, hlt, hlt2, Char.ofNat_toNat]
  · simp [parseStringBody, h1, h2, h8]

theorem parseStringBody_escapeChars (cs : List Char) :
    ∀ (fuel : Nat) (rest : List Char), cs.length < fuel →
      parseStringBody fuel (escapeChars cs ++ '"' :: rest) = some (cs, rest) := by
  induction cs with
  | nil =>
    intro fuel rest hf
    obtain ⟨f, rfl⟩ : ∃ f, fuel = f + 1 := ⟨fuel - 1, by omega⟩
    simp [escapeChars, parseStringBody]
  | cons c cs ih =>
    intro fuel rest hf
    obtain ⟨f, rfl⟩ : ∃ f, fuel = f + 1 := ⟨fuel - 1, by omega⟩
    have hf' : cs.length < f := by simpa using hf
    rw [escapeChars, List.append_assoc, parseStringBody_escapeChar, ih f rest hf']
    rfl

theorem length_le_escapeChars (cs : List Char) : cs.length ≤ (escapeChars cs).length := by
  induction cs with
  | nil => simp [escapeChars]
  | cons c cs ih =>
    have h1 : 1 ≤ (escapeChar c).length := by
      unfold escapeChar
      split_ifs <;> simp
    simp only [escapeChars, List.length_append, List.length_cons]
    omega

theorem parseString_quote (s : String) (rest : List Char) :
    parseString (escapeChars s.toList ++ '"' :: rest) = some (s, rest) := by
  unfold parseString
  rw [parseStringBody_escapeChars s.toList _ rest]
  · rfl
  · have := length_le_escapeChars s.toList
    simp only [List.length_append, List.length_cons]
    omega

/-! ## Digits -/

theorem digitChar_isDigit : ∀ d : Nat, d < 10 → (digitChar d).isDigit = true := by decide

theorem digitVal_digitChar : ∀ d : Nat, d < 10 → digitVal (digitChar d) = d := by decide

theorem digitChar_eq_zero : ∀ d : Nat, d < 10 → digitChar d = '0' → d = 0 := by decide

theorem isDigit_ne {c : Char} (h : c.isDigit = true) :
    c ≠ '.' ∧ c ≠ 'e' ∧ c ≠ 'E' ∧ c ≠ '-' ∧ c ≠ '+' := by
  refine ⟨?_, ?_, ?_, ?_, ?_⟩ <;> (rintro rfl; revert h; decide)

theorem takeDigits_append (ds rest : List Char) (hd : ∀ c ∈ ds, c.isDigit = true)
    (hr : ∀ c t, rest = c :: t → c.isDigit = false) :
    takeDigits (ds ++ rest) = (ds, rest) := by
  induction ds with
  | nil =>
    cases rest with
    | nil => rfl
    | cons c t => simp [takeDigits, hr c t rfl]
  | cons d ds ih =>
    have h1 : d.isDigit = true := hd d (List.mem_cons_self d ds)
    have h2 := ih (fun c hc => hd c (List.mem_cons_of_mem d hc))
    simp [takeDigits, h1, h2]

theorem digitsToNat_foldl (ds : List Char) (a : Nat) :
    ds.foldl (fun acc c => 10 * acc + digitVal c) a = a * 10 ^ ds.length + digitsToNat ds := by
  induction ds generalizing a with
  | nil => simp [digitsToNat]
  | cons d ds ih =>
    simp only [List.foldl_cons, List.length_cons, digitsToNat]
    rw [ih (10 * a + digitVal d), ih (10 * 0 + digitVal d)]
    ring

theorem digitsToNat_append (a b : List Char) :
    digitsToNat (a ++ b) = digitsToNat a * 10 ^ b.length + digitsToNat b := by
  unfold digitsToNat
  rw [List.foldl_append, digitsToNat_foldl]
  rfl

theorem digitsToNat_zeros (z : Nat) : digitsToNat (List.replicate z '0') = 0 := by
  induction z with
  | zero => rfl
  | succ z ih =>
    have h : List.replicate (z + 1) '0' = ['0'] ++ List.replicate z '0' := rfl
    rw [h, digitsToNat_append, ih]
    simp [digitsToNat, digitVal]

theorem digitsToNat_cons_zero (ds : List Char) : digitsToNat ('0' :: ds) = digitsToNat ds := by
  have h : '0' :: ds = ['0'] ++ ds := rfl
  rw [h, digitsToNat_append]
  simp [digitsToNat, digitVal]

theorem digitsToNat_map_digitChar (ds : List Nat) (h : ∀ d ∈ ds, d < 10) :
    digitsToNat (ds.map digitChar) = Nat.ofDigits 10 ds.reverse := by
  induction ds using List.reverseRecOn with
  | nil => rfl
  | append_singleton ds d ih =>
    have hd : d < 10 := h d (by simp)
    have hds : ∀ x ∈ ds, x < 10 := fun x hx => h x (by simp [hx])
    rw [List.map_append, digitsToNat_append, ih hds, List.reverse_append]
    simp [Nat.ofDigits_cons, digitsToNat, digitVal_digitChar d hd]
    ring

/-! ## The parts of a JSON number -/

theorem parseFraction_absent (rest : List Char) (hr : ∀ c t, rest = c :: t → c ≠ '.') :
    parseFraction rest = some ([], rest) := by
  cases rest with
  | nil => rfl
  | cons c t => simp [parseFraction, hr c t rfl]

theorem parseFraction_present (fp rest : List Char) (hfp : ∀ c ∈ fp, c.isDigit = true)
    (hne : fp ≠ []) (hr : ∀ c t, rest = c :: t → c.isDigit = false) :
    parseFraction ('.' :: (fp ++ rest)) = some (fp, rest) := by
  simp [parseFraction, takeDigits_append fp rest hfp hr, hne]

theorem parseExponent_absent (rest : List Char)
    (hr : ∀ c t, rest = c :: t → c ≠ 'e' ∧ c ≠ 'E') :
    parseExponent rest = some (0, rest) := by
  cases rest with
  | nil => rfl
  | cons c t => simp [parseExponent, hr c t rfl]

theorem parseExponent_present (minus : Bool) (ed rest : List Char)
    (hed : ∀ c ∈ ed, c.isDigit = true) (hne : ed ≠ [])
    (hr : ∀ c t, rest = c :: t → c.isDigit = false) :
    parseExponent ('e' :: (if minus then '-' else '+') :: (ed ++ rest)) =
      some ((if minus then -(digitsToNat ed : Int) else (digitsToNat ed : Int)), rest) := by
  cases minus <;> simp [parseExponent, takeSign, takeDigits_append ed rest hed hr, hne]

theorem parseNumber_of_parts (ip tail fp r2 rest : List Char) (e : Int)
    (hip : ∀ c ∈ ip, c.isDigit = true) (hne : ip ≠ [])
    (hlead : ip.head? = some '0' → ip.length = 1)
    (htail : ∀ c t, tail = c :: t → c.isDigit = false)
    (hfrac : parseFraction tail = some (fp, r2))
    (hexp : parseExponent r2 = some (e, rest)) :
    parseNumber (ip ++ tail) =
      some (JSValue.num (JSNum.fin
        (decValue (digitsToNat (ip ++ fp)) (e - (fp.length : Int)))), rest) ∧
    parseNumber ('-' :: (ip ++ tail)) =
      some (JSValue.num (JSNum.fin
        (-(decValue (digitsToNat (ip ++ fp)) (e - (fp.length : Int))))), rest) := by
  have htd := takeDigits_append ip tail hip htail
  cases ip with
  | nil => exact absurd rfl hne
  | cons c ip' =>
    have hc : c.isDigit = true := hip c (List.mem_cons_self c ip')
    have hcm : c ≠ '-' := (isDigit_ne hc).2.2.2.1
    have hl : c = '0' → ip' = [] := by
      intro h0
      have := hlead (by simp [h0])
      simpa using this
    constructor
    · simp only [parseNumber, List.cons_append, hcm, if_false]
      rw [← List.cons_append, htd]
      simp only [hfrac, hexp]
      simpa using hl
    · simp only [parseNumber, if_true]
      rw [htd]
      simp only [hfrac, hexp]
      simpa using hl

/-! ## Decimal digits of a natural number -/

theorem digitsLE_eq_digits (fuel : Nat) : ∀ n : Nat, n ≤ fuel → digitsLE fuel n = Nat.digits 10 n := by
  induction fuel with
  | zero =>
    intro n hn
    have : n = 0 := by omega
    subst this
    simp [digitsLE]
  | succ f ih =>
    intro n hn
    by_cases h0 : n = 0
    · subst h0; simp [digitsLE]
    · have hpos : 0 < n := Nat.pos_of_ne_zero h0
      rw [digitsLE, if_neg h0, Nat.digits_def' (by norm_num) hpos, ih (n / 10) (by omega)]

theorem digitsLE_self (n : Nat) : digitsLE n n = Nat.digits 10 n :=
  digitsLE_eq_digits n n le_rfl

theorem natToChars_isDigit (n : Nat) : ∀ c ∈ natToChars n, c.isDigit = true := by
  intro c hc
  unfold natToChars at hc
  split_ifs at hc with h0
  · simp at hc; subst hc; decide
  · rw [digitsLE_self, List.mem_map] at hc
    obtain ⟨d, hd, rfl⟩ := hc
    exact digitChar_isDigit d (Nat.digits_lt_base (by norm_num) (List.mem_reverse.mp hd))

theorem natToChars_ne_nil (n : Nat) : natToChars n ≠ [] := by
  unfold natToChars
  split_ifs with h0
  · simp
  · rw [digitsLE_self]
    simpa [Nat.digits_ne_nil_iff_ne_zero] using h0

theorem digitsToNat_natToChars (n : Nat) : digitsToNat (natToChars n) = n := by
  unfold natToChars
  split_ifs with h0
  · subst h0; rfl
  · rw [digitsLE_self, digitsToNat_map_digitChar, List.reverse_reverse, Nat.ofDigits_digits]
    intro d hd
    exact Nat.digits_lt_base (by norm_num) (List.mem_reverse.mp hd)

/-! ## `renderDigits` read back by `parseNumber` -/

theorem decValue_mul_pow (a j : Nat) (e : Int) :
    decValue (a * 10 ^ j) e = decValue a (e + j) := by
  unfold decValue
  rw [zpow_add₀ (by norm_num : (10 : ℚ) ≠ 0), zpow_natCast]
  push_cast
  ring

theorem map_digitChar_isDigit (ds : List Nat) (hds : ∀ d ∈ ds, d < 10) :
    ∀ c ∈ ds.map digitChar, c.isDigit = true := by
  intro c hc
  obtain ⟨d, hd, rfl⟩ := List.mem_map.mp hc
  exact digitChar_isDigit d (hds d hd)

theorem head_digitChar_ne_zero (ds : List Nat) (hds : ∀ d ∈ ds, d < 10) (hne : ds ≠ [])
    (hhead : ds.head? ≠ some 0) (tl : List Char) :
    (ds.map digitChar ++ tl).head? = some '0' → (ds.map digitChar ++ tl).length = 1 := by
  cases ds with
  | nil => exact absurd rfl hne
  | cons d t =>
    intro h
    exfalso
    simp only [List.map_cons, List.cons_append, List.head?_cons, Option.some.injEq] at h
    have := digitChar_eq_zero d (hds d (List.mem_cons_self d t)) h
    subst this
    simp at hhead

theorem parseNumber_renderDigits (ds : List Nat) (n : Int) (rest : List Char)
    (hds : ∀ d ∈ ds, d < 10) (hne : ds ≠ []) (hhead : ds.head? ≠ some 0)
    (hrest : ∀ c t, rest = c :: t → c.isDigit = false ∧ c ≠ '.' ∧ c ≠ 'e' ∧ c ≠ 'E') :
    parseNumber (renderDigits ds n ++ rest) =
      some (JSValue.num (JSNum.fin
        (decValue (digitsToNat (ds.map digitChar)) (n - (ds.length : Int)))), rest) ∧
    parseNumber ('-' :: (renderDigits ds n ++ rest)) =
      some (JSValue.num (JSNum.fin
        (-(decValue (digitsToNat (ds.map digitChar)) (n - (ds.length : Int))))), rest) := by
  have hD := map_digitChar_isDigit ds hds
  have hr1 : ∀ c t, rest = c :: t → c.isDigit = false := fun c t h => (hrest c t h).1
  have hr2 : ∀ c t, rest = c :: t → c ≠ '.' := fun c t h => (hrest c t h).2.1
  have hr3 : ∀ c t, rest = c :: t → c ≠ 'e' ∧ c ≠ 'E' := fun c t h => (hrest c t h).2.2
  unfold renderDigits
  simp only []
  by_cases ha : (ds.length : Int) ≤ n ∧ n ≤ 21
  · -- digits followed by zeros
    rw [if_pos ha]
    have hz : ∀ c ∈ List.replicate (n - (ds.length : Int)).toNat '0', c.isDigit = true := by
      intro c hc
      rw [List.eq_of_mem_replicate hc]
      decide
    have hip : ∀ c ∈ ds.map digitChar ++ List.replicate (n - (ds.length : Int)).toNat '0',
        c.isDigit = true := by
      intro c hc
      rcases List.mem_append.mp hc with h | h
      · exact hD c h
      · exact hz c h
    have key := parseNumber_of_parts
      (ds.map digitChar ++ List.replicate (n - (ds.length : Int)).toNat '0') rest [] rest rest 0
      hip (by simp [hne]) (head_digitChar_ne_zero ds hds hne hhead _) hr1
      (parseFraction_absent rest hr2) (parseExponent_absent rest hr3)
    have hval : decValue (digitsToNat
        ((ds.map digitChar ++ List.replicate (n - (ds.length : Int)).toNat '0') ++ []))
          (0 - (([] : List Char).length : Int)) =
        decValue (digitsToNat (ds.map digitChar)) (n - (ds.length : Int)) := by
      rw [List.append_nil, digitsToNat_append, digitsToNat_zeros, Nat.add_zero,
        List.length_replicate, decValue_mul_pow]
      congr 1
      have : ((n - (ds.length : Int)).toNat : Int) = n - ds.length :=
        Int.toNat_of_nonneg (by omega)
      rw [this]
      simp
    rw [hval] at key
    exact key
  rw [if_neg ha]
  by_cases hb : 0 < n ∧ n ≤ 21
  · -- digits with a decimal point inside
    rw [if_pos hb]
    have hn0 : 0 ≤ n := by omega
    have hlt : n.toNat < ds.length := by omega
    have hpos : 0 < n.toNat := by omega
    have htake : ∀ c ∈ (ds.take n.toNat).map digitChar, c.isDigit = true :=
      map_digitChar_isDigit _ (fun d hd => hds d (List.mem_of_mem_take hd))
    have hdrop : ∀ c ∈ (ds.drop n.toNat).map digitChar, c.isDigit = true :=
      map_digitChar_isDigit _ (fun d hd => hds d (List.mem_of_mem_drop hd))
    have htne : (ds.take n.toNat).map digitChar ≠ [] := by
      cases ds with
      | nil => exact absurd rfl hne
      | cons d t =>
        obtain ⟨m, hm⟩ : ∃ m, n.toNat = m + 1 := ⟨n.toNat - 1, by omega⟩
        simp [hm]
    have hdne : (ds.drop n.toNat).map digitChar ≠ [] := by
      intro h
      have h1 := congrArg List.length h
      simp at h1
      omega
    have htne' : ds.take n.toNat ≠ [] := by
      intro h
      exact htne (by rw [h]; rfl)
    have hhead' : (ds.take n.toNat).head? ≠ some 0 := by
      cases ds with
      | nil => exact absurd rfl hne
      | cons d t =>
        obtain ⟨m, hm⟩ : ∃ m, n.toNat = m + 1 := ⟨n.toNat - 1, by omega⟩
        simpa [hm] using hhead
    have hlead := head_digitChar_ne_zero (ds.take n.toNat)
      (fun d hd => hds d (List.mem_of_mem_take hd)) htne' hhead' []
    rw [List.append_nil] at hlead
    have key := parseNumber_of_parts ((ds.take n.toNat).map digitChar)
      ('.' :: ((ds.drop n.toNat).map digitChar ++ rest)) ((ds.drop n.toNat).map digitChar)
      rest rest 0 htake htne hlead
      (by intro c t h; simp only [List.cons.injEq] at h; rw [← h.1]; decide)
      (parseFraction_present _ rest hdrop hdne hr1) (parseExponent_absent rest hr3)
    have hval : decValue (digitsToNat
        ((ds.take n.toNat).map digitChar ++ (ds.drop n.toNat).map digitChar))
          (0 - (((ds.drop n.toNat).map digitChar).length : Int)) =
        decValue (digitsToNat (ds.map digitChar)) (n - (ds.length : Int)) := by
      rw [← List.map_append, List.take_append_drop]
      congr 1
      simp only [List.length_map, List.length_drop]
      omega
    rw [hval] at key
    simpa [List.append_assoc] using key
  rw [if_neg hb]
  by_cases hc : -6 < n ∧ n ≤ 0
  · -- zero, point, zeros, digits
    rw [if_pos hc]
    have hz : ∀ c ∈ List.replicate (-n).toNat '0', c.isDigit = true := by
      intro c hc
      rw [List.eq_of_mem_replicate hc]
      decide
    have hfp : ∀ c ∈ List.replicate (-n).toNat '0' ++ ds.map digitChar, c.isDigit = true := by
      intro c hc
      rcases List.mem_append.mp hc with h | h
      · exact hz c h
      · exact hD c h
    have key := parseNumber_of_parts ['0']
      ('.' :: ((List.replicate (-n).toNat '0' ++ ds.map digitChar) ++ rest))
      (List.replicate (-n).toNat '0' ++ ds.map digitChar) rest rest 0
      (by intro c hc; simp at hc; subst hc; decide) (by simp) (by simp)
      (by intro c t h; simp only [List.cons.injEq] at h; rw [← h.1]; decide)
      (parseFraction_present _ rest hfp (by simp [hne]) hr1) (parseExponent_absent rest hr3)
    have hval : decValue (digitsToNat
        (['0'] ++ (List.replicate (-n).toNat '0' ++ ds.map digitChar)))
          (0 - ((List.replicate (-n).toNat '0' ++ ds.map digitChar).length : Int)) =
        decValue (digitsToNat (ds.map digitChar)) (n - (ds.length : Int)) := by
      rw [List.singleton_append, digitsToNat_cons_zero, digitsToNat_append, digitsToNat_zeros]
      simp only [Nat.zero_mul, Nat.zero_add, List.length_append, List.length_replicate,
        List.length_map]
      congr 1
      omega
    rw [hval] at key
    simpa [List.append_assoc] using key
  · -- exponent notation
    rw [if_neg hc]
    have hed := natToChars_isDigit (n - 1).natAbs
    have hedne := natToChars_ne_nil (n - 1).natAbs
    have hexp := parseExponent_present (decide (n - 1 < 0)) (natToChars (n - 1).natAbs) rest
      hed hedne hr1
    have hev : (if decide (n - 1 < 0) = true then
        -((digitsToNat (natToChars (n - 1).natAbs) : Nat) : Int)
        else ((digitsToNat (natToChars (n - 1).natAbs) : Nat) : Int)) = n - 1 := by
      rw [digitsToNat_natToChars]
      by_cases h : n - 1 < 0
      · simp only [h, decide_True, if_true]; omega
      · simp only [h, decide_False, Bool.false_eq_true, if_false]; omega
    rw [hev] at hexp
    have hsign : (if decide (n - 1 < 0) = true then '-' else '+') =
        (if n - 1 < 0 then '-' else '+') := by
      by_cases h : n - 1 < 0 <;> simp [h]
    rw [hsign] at hexp
    cases ds with
    | nil => exact absurd rfl hne
    | cons d t =>
      have hd : (digitChar d).isDigit = true := digitChar_isDigit d (hds d (List.mem_cons_self d t))
      cases t with
      | nil =>
        have key := parseNumber_of_parts [digitChar d]
          ('e' :: (if n - 1 < 0 then '-' else '+') :: (natToChars (n - 1).natAbs ++ rest))
          [] _ rest (n - 1)
          (by intro c hc; simp at hc; subst hc; exact hd) (by simp) (by simp)
          (by intro c t h; simp only [List.cons.injEq] at h; rw [← h.1]; decide)
          (parseFraction_absent _ (by
            intro c t h; simp only [List.cons.injEq] at h; rw [← h.1]; decide))
          hexp
        simpa using key
      | cons d2 t2 =>
        have htl : ∀ c ∈ (d2 :: t2).map digitChar, c.isDigit = true :=
          map_digitChar_isDigit _ (fun x hx => hds x (List.mem_cons_of_mem d hx))
        have key := parseNumber_of_parts [digitChar d]
          ('.' :: ((d2 :: t2).map digitChar ++
            ('e' :: (if n - 1 < 0 then '-' else '+') :: (natToChars (n - 1).natAbs ++ rest))))
          ((d2 :: t2).map digitChar) _ rest (n - 1)
          (by intro c hc; simp at hc; subst hc; exact hd) (by simp) (by simp)
          (by intro c t h; simp only [List.cons.injEq] at h; rw [← h.1]; decide)
          (parseFraction_present _ _ htl (by simp) (by
            intro c t h; simp only [List.cons.injEq] at h; rw [← h.1]; decide))
          hexp
        have hval : decValue (digitsToNat ([digitChar d] ++ (d2 :: t2).map digitChar))
            (n - 1 - (((d2 :: t2).map digitChar).length : Int)) =
            decValue (digitsToNat ((d :: d2 :: t2).map digitChar))
              (n - ((d :: d2 :: t2).length : Int)) := by
          congr 1
          simp only [List.length_map, List.length_cons]
          push_cast
          ring
        rw [hval] at key
        simpa [List.append_assoc] using key

/-! ## `Number::toString` read back by `parseNumber` -/

theorem dvd_ten_pow_self (d : Nat) (hd : 0 < d) (h : ∃ k : Nat, d ∣ 10 ^ k) : d ∣ 10 ^ d := by
  obtain ⟨k, hk⟩ := h
  rw [← Nat.factorization_le_iff_dvd (by omega) (by positivity)]
  intro p
  rw [Nat.factorization_pow]
  simp only [Finsupp.smul_apply, smul_eq_mul]
  by_cases hp : p.Prime
  · by_cases h10 : p ∣ 10
    · have h1 : 0 < (10 : Nat).factorization p := hp.factorization_pos_of_dvd (by norm_num) h10
      have h2 : d.factorization p < d := Nat.factorization_lt p (by omega)
      nlinarith
    · have : ¬ p ∣ d := fun hpd => h10 (hp.dvd_of_dvd_pow (dvd_trans hpd hk))
      rw [Nat.factorization_eq_zero_of_not_dvd this]
      omega
  · rw [Nat.factorization_eq_zero_of_non_prime _ hp]
    omega

theorem findScale_dvd (den : Nat) : ∀ (fuel k : Nat), den ∣ 10 ^ (k + fuel) →
    den ∣ 10 ^ findScale fuel k den := by
  intro fuel
  induction fuel with
  | zero => intro k h; simpa [findScale] using h
  | succ f ih =>
    intro k h
    unfold findScale
    split_ifs with h0
    · exact Nat.dvd_of_mod_eq_zero h0
    · exact ih (k + 1) (by rw [show k + 1 + f = k + (f + 1) by omega]; exact h)

theorem decimalScale_dvd (den : Nat) (hd : 0 < den) (h : ∃ k : Nat, den ∣ 10 ^ k) :
    den ∣ 10 ^ decimalScale den := by
  unfold decimalScale
  apply findScale_dvd
  rw [Nat.zero_add]
  exact dvd_ten_pow_self den hd h

theorem ofDigits_dropWhile_zero (l : List Nat) :
    (l.dropWhile (fun d => d == 0)).length ≤ l.length ∧
    Nat.ofDigits 10 l =
      10 ^ (l.length - (l.dropWhile (fun d => d == 0)).length) *
        Nat.ofDigits 10 (l.dropWhile (fun d => d == 0)) := by
  induction l with
  | nil => simp
  | cons d t ih =>
    by_cases hd : d = 0
    · subst hd
      have hdw : (0 :: t).dropWhile (fun d => d == 0) = t.dropWhile (fun d => d == 0) := by
        simp [List.dropWhile]
      rw [hdw]
      refine ⟨by simp only [List.length_cons]; omega, ?_⟩
      rw [Nat.ofDigits_cons, ih.2]
      have : (0 :: t).length - (t.dropWhile (fun d => d == 0)).length
          = (t.length - (t.dropWhile (fun d => d == 0)).length) + 1 := by
        simp only [List.length_cons]
        omega
      rw [this, pow_succ]
      ring
    · have hdw : (d :: t).dropWhile (fun d => d == 0) = d :: t := by
        exact List.dropWhile_cons_of_neg (by simpa using hd)
      rw [hdw]
      simp

theorem getLast?_dropWhile_zero (l : List Nat) (x : Nat) (hx : l.getLast? = some x)
    (hx0 : x ≠ 0) : (l.dropWhile (fun d => d == 0)).getLast? = some x := by
  induction l with
  | nil => simp at hx
  | cons d t ih =>
    by_cases hd : d = 0
    · subst hd
      have hdw : (0 :: t).dropWhile (fun d => d == 0) = t.dropWhile (fun d => d == 0) := by
        simp [List.dropWhile]
      rw [hdw]
      cases t with
      | nil =>
        simp at hx
        exact absurd hx.symm hx0
      | cons d2 t2 =>
        rw [List.getLast?_cons_cons] at hx
        exact ih hx
    · have hdw : (d :: t).dropWhile (fun d => d == 0) = d :: t := by
        exact List.dropWhile_cons_of_neg (by simpa using hd)
      rw [hdw]
      exact hx

theorem parseNumber_positiveToString (q : ℚ) (hq : 0 < q) (hdec : ∃ k : Nat, q.den ∣ 10 ^ k)
    (rest : List Char)
    (hrest : ∀ c t, rest = c :: t → c.isDigit = false ∧ c ≠ '.' ∧ c ≠ 'e' ∧ c ≠ 'E') :
    parseNumber (positiveToString q ++ rest) = some (JSValue.num (JSNum.fin q), rest) ∧
    parseNumber ('-' :: (positiveToString q ++ rest)) =
      some (JSValue.num (JSNum.fin (-q)), rest) := by
  have hden : 0 < q.den := q.den_pos
  have hk0 := decimalScale_dvd q.den hden hdec
  obtain ⟨w, hw⟩ := hk0
  have hnum : 0 < q.num := Rat.num_pos.mpr hq
  have hw0 : 0 < w := by
    rcases Nat.eq_zero_or_pos w with h | h
    · rw [h, Nat.mul_zero] at hw
      exact absurd hw (by positivity)
    · exact h
  have hm : q.num.natAbs * 10 ^ decimalScale q.den / q.den = q.num.natAbs * w := by
    rw [hw, ← Nat.mul_assoc, Nat.mul_comm q.num.natAbs q.den, Nat.mul_assoc,
      Nat.mul_div_cancel_left _ hden]
  have hmpos : 0 < q.num.natAbs * w := Nat.mul_pos (by omega) hw0
  -- the digits
  have hle : digitsLE (q.num.natAbs * w) (q.num.natAbs * w) = Nat.digits 10 (q.num.natAbs * w) :=
    digitsLE_self _
  have hlast : (Nat.digits 10 (q.num.natAbs * w)).getLast? =
      some ((Nat.digits 10 (q.num.natAbs * w)).getLast
        (Nat.digits_ne_nil_iff_ne_zero.mpr (by omega))) :=
    List.getLast?_eq_getLast _ _
  have hlast0 := Nat.getLast_digit_ne_zero 10 (m := q.num.natAbs * w) (by omega)
  have hdl := getLast?_dropWhile_zero _ _ hlast hlast0
  have hstrip := ofDigits_dropWhile_zero (Nat.digits 10 (q.num.natAbs * w))
  rw [Nat.ofDigits_digits] at hstrip
  have hds : ∀ d ∈ ((Nat.digits 10 (q.num.natAbs * w)).dropWhile (fun d => d == 0)).reverse,
      d < 10 := by
    intro d hd
    exact Nat.digits_lt_base (by norm_num)
      ((List.dropWhile_sublist _).subset (List.mem_reverse.mp hd))
  have hne : ((Nat.digits 10 (q.num.natAbs * w)).dropWhile (fun d => d == 0)).reverse ≠ [] := by
    intro h
    rw [List.reverse_eq_nil_iff] at h
    rw [h] at hdl
    simp at hdl
  have hhead : (((Nat.digits 10 (q.num.natAbs * w)).dropWhile
      (fun d => d == 0)).reverse).head? ≠ some 0 := by
    rw [List.head?_reverse, hdl]
    intro h
    exact hlast0 (Option.some.inj h)
  have key := parseNumber_renderDigits _
    (((Nat.digits 10 (q.num.natAbs * w)).length : Int) - (decimalScale q.den : Int)) rest
    hds hne hhead hrest
  have hval : decValue (digitsToNat
      ((((Nat.digits 10 (q.num.natAbs * w)).dropWhile (fun d => d == 0)).reverse).map digitChar))
      (((Nat.digits 10 (q.num.natAbs * w)).length : Int) - (decimalScale q.den : Int) -
        ((((Nat.digits 10 (q.num.natAbs * w)).dropWhile
          (fun d => d == 0)).reverse).length : Int)) = q := by
    rw [digitsToNat_map_digitChar _ hds, List.reverse_reverse, List.length_reverse]
    have hexp : ((Nat.digits 10 (q.num.natAbs * w)).length : Int) - (decimalScale q.den : Int) -
        (((Nat.digits 10 (q.num.natAbs * w)).dropWhile (fun d => d == 0)).length : Int) =
        -(decimalScale q.den : Int) + (((Nat.digits 10 (q.num.natAbs * w)).length -
          ((Nat.digits 10 (q.num.natAbs * w)).dropWhile (fun d => d == 0)).length : Nat) : Int) := by
      have := hstrip.1
      omega
    rw [hexp, ← decValue_mul_pow, Nat.mul_comm, ← hstrip.2]
    unfold decValue
    rw [zpow_neg, zpow_natCast]
    have h10 : ((10 : ℚ) ^ decimalScale q.den) = (q.den : ℚ) * (w : ℚ) := by
      have := congrArg (fun x : Nat => (x : ℚ)) hw
      simpa using this
    rw [h10]
    have hqd : (q.den : ℚ) ≠ 0 := by exact_mod_cast hden.ne'
    have hwq : (w : ℚ) ≠ 0 := by exact_mod_cast hw0.ne'
    have hqn : ((q.num.natAbs : Nat) : ℚ) = (q.num : ℚ) := by
      have h1 : ((q.num.natAbs : Nat) : Int) = q.num := Int.natAbs_of_nonneg hnum.le
      rw [← Int.cast_natCast, h1]
    push_cast
    rw [hqn]
    field_simp
    rw [← Rat.mul_den_eq_num q]
    ring
  rw [hval] at key
  unfold positiveToString
  simp only []
  rw [hm, hle]
  exact key

theorem parseNumber_numberToString (q : ℚ) (hdec : ∃ k : Nat, q.den ∣ 10 ^ k)
    (rest : List Char)
    (hrest : ∀ c t, rest = c :: t → c.isDigit = false ∧ c ≠ '.' ∧ c ≠ 'e' ∧ c ≠ 'E') :
    parseNumber (numberToString (JSNum.fin q) ++ rest) =
      some (JSValue.num (JSNum.fin q), rest) := by
  simp only [numberToString]
  by_cases h0 : q = 0
  · subst h0
    rw [if_pos rfl]
    have key := (parseNumber_of_parts ['0'] rest [] rest rest 0
      (by intro c hc; simp at hc; subst hc; decide) (by simp) (by simp)
      (fun c t h => (hrest c t h).1)
      (parseFraction_absent rest (fun c t h => (hrest c t h).2.1))
      (parseExponent_absent rest (fun c t h => (hrest c t h).2.2))).1
    have hv : decValue (digitsToNat (['0'] ++ [])) (0 - (([] : List Char).length : Int)) = 0 := by
      simp [decValue, digitsToNat, digitVal]
    rw [hv] at key
    exact key
  · rw [if_neg h0]
    by_cases hneg : q < 0
    · rw [if_pos hneg]
      have key := (parseNumber_positiveToString (-q) (by linarith)
        (by simpa using hdec) rest hrest).2
      rw [neg_neg] at key
      exact key
    · rw [if_neg hneg]
      have hpos : 0 < q := lt_of_le_of_ne (not_lt.mp hneg) (Ne.symm h0)
      exact (parseNumber_positiveToString q hpos hdec rest hrest).1

theorem parseNumber_head (cs : List Char) (x : JSValue × List Char)
    (h : parseNumber cs = some x) :
    ∃ c r, cs = c :: r ∧ (c = '-' ∨ c.isDigit = true) := by
  cases cs with
  | nil => simp [parseNumber, takeDigits] at h
  | cons c r =>
    refine ⟨c, r, rfl, ?_⟩
    by_cases hm : c = '-'
    · exact Or.inl hm
    · right
      by_contra hd
      simp [parseNumber, hm, takeDigits, hd] at h

theorem not_structural {c : Char} (h : c = '-' ∨ c.isDigit = true) :
    isJSONWhiteSpace c = false ∧ c ≠ '{' ∧ c ≠ '[' ∧ c ≠ '"' ∧ c ≠ 't' ∧ c ≠ 'f' ∧ c ≠ 'n' := by
  rcases h with h | h
  · subst h; decide
  · refine ⟨?_, ?_, ?_, ?_, ?_, ?_, ?_⟩
    · by_contra hw
      have hw' : isJSONWhiteSpace c = true := by simpa using hw
      simp only [isJSONWhiteSpace, Bool.or_eq_true, decide_eq_true_eq] at hw'
      rcases hw' with ((hw' | hw') | hw') | hw' <;> (subst hw'; revert h; decide)
    all_goals (rintro rfl; revert h; decide)

theorem parseValue_of_number (fuel : Nat) (cs : List Char) (x : JSValue × List Char)
    (h : parseNumber cs = some x) : parseValue (fuel + 1) cs = some x := by
  obtain ⟨c, r, rfl, hc⟩ := parseNumber_head cs x h
  obtain ⟨h1, h2, h3, h4, h5, h6, h7⟩ := not_structural hc
  have hs : skipWS (c :: r) = c :: r := by simp [skipWS, List.dropWhile, h1]
  rw [parseValue, hs]
  simp [h2, h3, h4, Ne.symm h5, Ne.symm h6, Ne.symm h7, List.isPrefixOf, h]

theorem parseValue_num (fuel : Nat) (q : ℚ) (hdec : ∃ k : Nat, q.den ∣ 10 ^ k)
    (rest : List Char)
    (hrest : ∀ c t, rest = c :: t → c.isDigit = false ∧ c ≠ '.' ∧ c ≠ 'e' ∧ c ≠ 'E') :
    parseValue (fuel + 1) (renderValue (JSValue.num (JSNum.fin q)) ++ rest) =
      some (JSValue.num (JSNum.fin q), rest) := by
  rw [renderValue]
  exact parseValue_of_number fuel _ _ (parseNumber_numberToString q hdec rest hrest)

theorem parseValue_str (fuel : Nat) (s : String) (rest : List Char) :
    parseValue (fuel + 1) (renderValue (JSValue.str s) ++ rest) =
      some (JSValue.str s, rest) := by
  have hs : skipWS ('"' :: (escapeChars s.toList ++ '"' :: rest))
      = '"' :: (escapeChars s.toList ++ '"' :: rest) := by
    simp [skipWS, List.dropWhile, isJSONWhiteSpace]
  rw [renderValue, quoteJSONString, List.cons_append, List.append_assoc, List.singleton_append,
    parseValue, hs]
  have hq := parseString_quote s rest
  simp only [String.toList] at hq
  simp [hq]

/-! ## A cart line through `JSON.stringify` and `JSON.parse` -/

theorem parseMembers_step (fuel : Nat) (k : String) (v : JSValue) (d : Char)
    (tail : List Char) (acc : List (String × JSValue))
    (hv : parseValue fuel (renderValue v ++ d :: tail) = some (v, d :: tail))
    (hd : isJSONWhiteSpace d = false) :
    parseMembers (fuel + 1) (quoteJSONString k ++ ':' :: (renderValue v ++ d :: tail)) acc =
      if d = ',' then parseMembers fuel tail (setMember acc k v)
      else if d = '}' then some (JSValue.obj (setMember acc k v), tail)
      else none := by
  have hq := parseString_quote k (':' :: (renderValue v ++ d :: tail))
  simp only [String.toList] at hq
  have hs1 : skipWS ('"' :: (escapeChars k.data ++ '"' :: ':' :: (renderValue v ++ d :: tail)))
      = '"' :: (escapeChars k.data ++ '"' :: ':' :: (renderValue v ++ d :: tail)) := by
    simp [skipWS, List.dropWhile, isJSONWhiteSpace]
  have hs2 : skipWS (':' :: (renderValue v ++ d :: tail)) = ':' :: (renderValue v ++ d :: tail) := by
    simp [skipWS, List.dropWhile, isJSONWhiteSpace]
  have hs3 : skipWS (d :: tail) = d :: tail := by
    simp [skipWS, List.dropWhile, hd]
  rw [quoteJSONString, List.cons_append, List.append_assoc, List.singleton_append]
  simp only [String.toList]
  rw [parseMembers, hs1]
  simp only [if_true, hq, hs2, hv, hs3]

theorem render_line (a b c d : JSValue) (rest : List Char) :
    renderValue (JSValue.obj [("id", a), ("name", b), ("price", c), ("quantity", d)]) ++ rest =
      '{' :: (quoteJSONString "id" ++ ':' :: (renderValue a ++ ',' ::
        (quoteJSONString "name" ++ ':' :: (renderValue b ++ ',' ::
          (quoteJSONString "price" ++ ':' :: (renderValue c ++ ',' ::
            (quoteJSONString "quantity" ++ ':' :: (renderValue d ++ '}' :: rest)))))))) := by
  simp only [renderValue, renderMembers, renderMoreMembers, List.append_assoc, List.cons_append,
    List.nil_append, List.append_nil]

theorem delimiter_facts (d : Char) (h : d = ',' ∨ d = '}' ∨ d = ']') (tail : List Char) :
    isJSONWhiteSpace d = false ∧
    ∀ c t, d :: tail = c :: t → c.isDigit = false ∧ c ≠ '.' ∧ c ≠ 'e' ∧ c ≠ 'E' := by
  constructor
  · rcases h with h | h | h <;> (subst h; decide)
  · intro c t hc
    simp only [List.cons.injEq] at hc
    rw [← hc.1]
    rcases h with h | h | h <;> (subst h; decide)

theorem parseValue_line (fuel : Nat) (p : LineItem) (a b : ℚ)
    (hp : p.price = JSNum.fin a) (ha : ∃ k : Nat, a.den ∣ 10 ^ k)
    (hq : p.quantity = JSNum.fin b) (hb : ∃ k : Nat, b.den ∣ 10 ^ k) (rest : List Char) :
    parseValue (fuel + 6) (renderValue p.toJS ++ rest) = some (p.toJS, rest) := by
  have hid : ∃ k : Nat, ((p.id : ℚ)).den ∣ 10 ^ k := ⟨0, by simp⟩
  have hcomma := fun tail => delimiter_facts ',' (Or.inl rfl) tail
  have hbrace := fun tail => delimiter_facts '}' (Or.inr (Or.inl rfl)) tail
  unfold LineItem.toJS
  rw [hp, hq, render_line]
  have hs : ∀ r : List Char, skipWS ('{' :: r) = '{' :: r := by
    intro r; simp [skipWS, List.dropWhile, isJSONWhiteSpace]
  have hs' : ∀ r : List Char, skipWS (quoteJSONString "id" ++ r) = quoteJSONString "id" ++ r := by
    intro r; simp [skipWS, List.dropWhile, isJSONWhiteSpace, quoteJSONString]
  rw [show fuel + 6 = (fuel + 5) + 1 from rfl, parseValue, hs]
  simp only [if_true, hs']
  have hq0 : ∀ r : List Char, quoteJSONString "id" ++ r = '"' :: (escapeChars "id".data ++ '"' :: r) := by
    intro r; simp [quoteJSONString]
  rw [hq0]
  simp only [show ('"' = '}') = False from by decide, if_false]
  rw [← hq0]
  rw [show fuel + 5 = (fuel + 4) + 1 from rfl,
    parseMembers_step (fuel + 4) "id" _ ',' _ []
      (parseValue_num (fuel + 3) _ hid _ (hcomma _).2) (hcomma []).1]
  rw [if_pos rfl, show fuel + 4 = (fuel + 3) + 1 from rfl,
    parseMembers_step (fuel + 3) "name" _ ',' _ _
      (parseValue_str (fuel + 2) _ _) (hcomma []).1]
  rw [if_pos rfl, show fuel + 3 = (fuel + 2) + 1 from rfl,
    parseMembers_step (fuel + 2) "price" _ ',' _ _
      (parseValue_num (fuel + 1) _ ha _ (hcomma _).2) (hcomma []).1]
  rw [if_pos rfl, show fuel + 2 = (fuel + 1) + 1 from rfl,
    parseMembers_step (fuel + 1) "quantity" _ '}' _ _
      (parseValue_num fuel _ hb _ (hbrace _).2) (hbrace []).1]
  rw [if_neg (by decide), if_pos rfl]
  simp [setMember]

theorem parseElements_lines (ps : List LineItem) :
    ∀ (p : LineItem) (fuel : Nat) (rest : List Char),
      (∀ x ∈ p :: ps, ∃ a b : ℚ, x.price = JSNum.fin a ∧ (∃ k : Nat, a.den ∣ 10 ^ k) ∧
        x.quantity = JSNum.fin b ∧ (∃ k : Nat, b.den ∣ 10 ^ k)) →
      parseElements (fuel + ps.length + 7)
        (renderValue p.toJS ++ (renderMoreElems (ps.map LineItem.toJS) ++ ']' :: rest)) =
        some ((p :: ps).map LineItem.toJS, rest) := by
  induction ps with
  | nil =>
    intro p fuel rest hfin
    obtain ⟨a, b, hp, ha, hq, hb⟩ := hfin p (List.mem_cons_self p [])
    have hv := parseValue_line fuel p a b hp ha hq hb (']' :: rest)
    have hs : skipWS (']' :: rest) = ']' :: rest := by
      simp [skipWS, List.dropWhile, isJSONWhiteSpace]
    simp only [List.map_nil, renderMoreElems, List.nil_append, List.length_nil, Nat.add_zero]
    rw [show fuel + 7 = (fuel + 6) + 1 from rfl, parseElements, hv]
    simp only [hs]
    rw [if_neg (by decide)]
    simp
  | cons p2 ps ih =>
    intro p fuel rest hfin
    obtain ⟨a, b, hp, ha, hq, hb⟩ := hfin p (List.mem_cons_self p _)
    have hrest := ih p2 fuel rest (fun x hx => hfin x (List.mem_cons_of_mem p hx))
    have hv := parseValue_line (fuel + ps.length + 1) p a b hp ha hq hb
      (',' :: (renderValue p2.toJS ++ (renderMoreElems (ps.map LineItem.toJS) ++ ']' :: rest)))
    have hs : ∀ r : List Char, skipWS (',' :: r) = ',' :: r := by
      intro r; simp [skipWS, List.dropWhile, isJSONWhiteSpace]
    simp only [List.map_cons, renderMoreElems, List.cons_append, List.append_assoc,
      List.length_cons]
    rw [show fuel + (ps.length + 1) + 7 = (fuel + ps.length + 1 + 6) + 1 by omega, parseElements,
      hv]
    simp only [hs, if_true]
    rw [show fuel + ps.length + 1 + 6 = fuel + ps.length + 7 by omega, hrest]
    rfl

theorem length_renderMoreElems (vs : List JSValue) :
    vs.length ≤ (renderMoreElems vs).length := by
  induction vs with
  | nil => simp
  | cons v vs ih =>
    rw [renderMoreElems]
    simp only [List.length_cons, List.length_append]
    omega

theorem persist_cons (p : LineItem) (ps : List LineItem) :
    (persist (p :: ps)).toList =
      '[' :: (renderValue p.toJS ++ (renderMoreElems (ps.map LineItem.toJS) ++ [']'])) := by
  simp only [persist, JSON.stringify, String.toList, List.map_cons, renderValue, renderElems,
    List.append_assoc]

theorem renderValue_line_head (p : LineItem) :
    ∃ t, renderValue p.toJS = '{' :: t := by
  have h := render_line (JSValue.num (JSNum.fin (p.id : ℚ))) (JSValue.str p.name)
    (JSValue.num p.price) (JSValue.num p.quantity) []
  rw [List.append_nil] at h
  exact ⟨_, h⟩

theorem parse_persist (p : LineItem) (ps : List LineItem)
    (hfin : ∀ x ∈ p :: ps, ∃ a b : ℚ, x.price = JSNum.fin a ∧ (∃ k : Nat, a.den ∣ 10 ^ k) ∧
      x.quantity = JSNum.fin b ∧ (∃ k : Nat, b.den ∣ 10 ^ k)) :
    JSON.parse (persist (p :: ps)) = some (JSValue.arr ((p :: ps).map LineItem.toJS)) := by
  obtain ⟨t, ht⟩ := renderValue_line_head p
  have hlen : ps.length + 7 ≤ 2 * (persist (p :: ps)).length + 1 := by
    have h1 : (persist (p :: ps)).length = (persist (p :: ps)).toList.length := rfl
    rw [h1, persist_cons, ht]
    have := length_renderMoreElems (ps.map LineItem.toJS)
    simp only [List.length_cons, List.length_append, List.length_map] at this ⊢
    omega
  obtain ⟨f, hf⟩ : ∃ f, 2 * (persist (p :: ps)).length + 1 = f + ps.length + 7 :=
    ⟨2 * (persist (p :: ps)).length + 1 - (ps.length + 7), by omega⟩
  have hel := parseElements_lines ps p f [] hfin
  unfold JSON.parse
  rw [show 2 * (persist (p :: ps)).length + 2 = (2 * (persist (p :: ps)).length + 1) + 1 from rfl,
    persist_cons, hf, parseValue]
  have hs1 : ∀ r : List Char, skipWS ('[' :: r) = '[' :: r := by
    intro r; simp [skipWS, List.dropWhile, isJSONWhiteSpace]
  have hs2 : ∀ r : List Char, skipWS ('{' :: r) = '{' :: r := by
    intro r; simp [skipWS, List.dropWhile, isJSONWhiteSpace]
  rw [hs1]
  simp only [show ('[' = '{') = False from by decide, if_false, if_true]
  rw [ht] at hel ⊢
  rw [List.cons_append, hs2]
  simp only [show ('{' = ']') = False from by decide, if_false]
  rw [← List.cons_append, hel]
  simp [skipWS]

/-- C2, amended. Round trip of persistence for a cart that is not empty and
whose prices and quantities are finite decimal numbers: the text written by the
persist effect deserializes to the same lines, and `loadInitialState` on it
gives them back, with the same ids, names, prices and quantities, in the same
order. -/
theorem round_trip_nonempty (products : List LineItem) (hne : products ≠ [])
    (hfin : ∀ p ∈ products, ∃ a b : ℚ, p.price = JSNum.fin a ∧ (∃ k : Nat, a.den ∣ 10 ^ k) ∧
      p.quantity = JSNum.fin b ∧ (∃ k : Nat, b.den ∣ 10 ^ k)) :
    JSON.parse (persist products) = some (JSValue.arr (products.map LineItem.toJS)) ∧
    loadInitialState (some (persist products)) = products.map LineItem.toJS := by
  cases products with
  | nil => exact absurd rfl hne
  | cons p ps =>
    have hparse := parse_persist p ps hfin
    refine ⟨hparse, ?_⟩
    have htruthy : truthy (persist (p :: ps)) = true := by
      rw [truthy_iff]
      intro h
      have h1 := congrArg String.toList h
      rw [persist_cons] at h1
      simp at h1
    rw [loadInitialState_some, htruthy, hparse]
    simp

/-- Witness for the amended C2: the default catalog. -/
theorem round_trip_nonempty_witness :
    productList ≠ [] ∧
    (∀ p ∈ productList, ∃ a b : ℚ, p.price = JSNum.fin a ∧ (∃ k : Nat, a.den ∣ 10 ^ k) ∧
      p.quantity = JSNum.fin b ∧ (∃ k : Nat, b.den ∣ 10 ^ k)) ∧
    JSON.parse (persist productList) = some (JSValue.arr (productList.map LineItem.toJS)) ∧
    loadInitialState (some (persist productList)) = productList.map LineItem.toJS :=
  have hfin : ∀ p ∈ productList, ∃ a b : ℚ, p.price = JSNum.fin a ∧
      (∃ k : Nat, a.den ∣ 10 ^ k) ∧ p.quantity = JSNum.fin b ∧ (∃ k : Nat, b.den ∣ 10 ^ k) := by
    intro p hp
    simp only [productList, List.mem_cons, List.mem_singleton, List.not_mem_nil, or_false] at hp
    rcases hp with rfl | rfl
    · exact ⟨50, 1, rfl, ⟨0, by simp⟩, rfl, ⟨0, by simp⟩⟩
    · exact ⟨30, 1, rfl, ⟨0, by simp⟩, rfl, ⟨0, by simp⟩⟩
  ⟨by decide, hfin, round_trip_nonempty productList (by decide) hfin⟩

/-! ## Rounding to binary64 never passes a whole number below 2^53 -/

theorem log2Fuel_eq (fuel : Nat) : ∀ n : Nat, n ≤ fuel → Binary64.log2Fuel fuel n = Nat.log2 n := by
  induction fuel with
  | zero =>
    intro n hn
    have : n = 0 := by omega
    subst this
    rw [Nat.log2]
    simp [Binary64.log2Fuel]
  | succ f ih =>
    intro n hn
    rw [Binary64.log2Fuel, Nat.log2]
    by_cases h2 : 2 ≤ n
    · rw [if_pos h2, if_pos h2, ih (n / 2) (by omega)]
    · rw [if_neg h2, if_neg h2]

theorem floorLog2_le (n d : Nat) (hn : 0 < n) (h : n < 2 ^ 53 * d) :
    Binary64.floorLog2 n d ≤ 52 := by
  unfold Binary64.floorLog2
  simp only []
  rw [log2Fuel_eq n n le_rfl, log2Fuel_eq d d le_rfl]
  have h1 : 2 ^ n.log2 ≤ n := Nat.log2_self_le (by omega)
  have h2 : d < 2 ^ (d.log2 + 1) := Nat.lt_log2_self
  split_ifs with hc
  · by_contra hgt
    have h53 : (53 : Int) ≤ (n.log2 : Int) - (d.log2 : Int) := by omega
    have ht : ((n.log2 : Int) - (d.log2 : Int)).toNat = n.log2 - d.log2 := by omega
    have hz : (-((n.log2 : Int) - (d.log2 : Int))).toNat = 0 := by omega
    rw [ht, hz] at hc
    have hp : 2 ^ 53 ≤ 2 ^ (n.log2 - d.log2) := Nat.pow_le_pow_right (by norm_num) (by omega)
    have : d * 2 ^ 53 ≤ d * 2 ^ (n.log2 - d.log2) := Nat.mul_le_mul_left d hp
    simp only [pow_zero, Nat.mul_one] at hc
    nlinarith
  · by_contra hgt
    have h54 : d.log2 + 54 ≤ n.log2 := by omega
    have hp : 2 ^ (d.log2 + 54) ≤ 2 ^ n.log2 := Nat.pow_le_pow_right (by norm_num) h54
    have hsplit : 2 ^ (d.log2 + 54) = 2 ^ (d.log2 + 1) * 2 ^ 53 := by
      rw [← pow_add]
    rw [hsplit] at hp
    nlinarith

theorem ulpExponent_nonpos (n d : Nat) (hn : 0 < n) (h : n < 2 ^ 53 * d) :
    Binary64.ulpExponent n d ≤ 0 := by
  have := floorLog2_le n d hn h
  unfold Binary64.ulpExponent
  omega

theorem roundHalfEven_le (n d m : Nat) (hd : 0 < d) (h : n ≤ m * d) :
    Binary64.roundHalfEven n d ≤ m := by
  have hdiv : n / d ≤ m := by
    calc n / d ≤ m * d / d := Nat.div_le_div_right h
      _ = m := Nat.mul_div_cancel m hd
  have hup : 0 < n % d → n / d + 1 ≤ m := by
    intro hr
    have hdm := Nat.div_add_mod n d
    have hlt : d * (n / d) < m * d := by omega
    have : n / d < m := by
      by_contra hge
      have : m * d ≤ d * (n / d) := by
        rw [Nat.mul_comm d]
        exact Nat.mul_le_mul_right d (not_lt.mp hge)
      omega
    omega
  unfold Binary64.roundHalfEven
  split_ifs with h1 h2 h3
  · exact hdiv
  · exact hup (by omega)
  · exact hdiv
  · exact hup (by omega)

theorem round64_nonneg (q : ℚ) (hq : 0 ≤ q) :
    Binary64.round64 q = JSNum.pinf ∨ ∃ r : ℚ, Binary64.round64 q = JSNum.fin r ∧ 0 ≤ r := by
  unfold Binary64.round64
  by_cases h0 : q = 0
  · right
    exact ⟨0, by rw [if_pos h0], le_rfl⟩
  · have hpos : 0 < q := lt_of_le_of_ne hq (Ne.symm h0)
    rw [if_neg h0]
    split_ifs with hov
    · left; rfl
    · right
      refine ⟨_, rfl, ?_⟩
      rw [Rat.mkRat_eq_div]
      positivity

theorem round64_le_nat (q : ℚ) (m : Nat) (hq : 0 ≤ q) (hle : q ≤ m) (hm : m < 2 ^ 53) :
    ∃ r : ℚ, Binary64.round64 q = JSNum.fin r ∧ 0 ≤ r ∧ r ≤ m := by
  by_cases h0 : q = 0
  · refine ⟨0, ?_, le_rfl, by positivity⟩
    unfold Binary64.round64
    rw [if_pos h0]
  · have hpos : 0 < q := lt_of_le_of_ne hq (Ne.symm h0)
    have hnum : 0 < q.num := Rat.num_pos.mpr hpos
    have hden : 0 < q.den := q.den_pos
    have hnat : 0 < q.num.natAbs := by omega
    have hqn : ((q.num.natAbs : Nat) : ℚ) = (q.num : ℚ) := by
      have h1 : ((q.num.natAbs : Nat) : Int) = q.num := Int.natAbs_of_nonneg hnum.le
      rw [← Int.cast_natCast, h1]
    have hqd : (q.den : ℚ) ≠ 0 := by exact_mod_cast hden.ne'
    have hqeq : q = (q.num.natAbs : ℚ) / (q.den : ℚ) := by
      rw [hqn]
      exact (Rat.num_div_den q).symm
    have hnle : q.num.natAbs ≤ m * q.den := by
      have h1 : (q.num.natAbs : ℚ) ≤ (m : ℚ) * (q.den : ℚ) := by
        have := hle
        rw [hqeq, div_le_iff₀ (by exact_mod_cast hden)] at this
        exact this
      exact_mod_cast h1
    have hlt : q.num.natAbs < 2 ^ 53 * q.den := by
      calc q.num.natAbs ≤ m * q.den := hnle
        _ < 2 ^ 53 * q.den := Nat.mul_lt_mul_of_pos_right hm hden
    have ht := ulpExponent_nonpos q.num.natAbs q.den hnat hlt
    have htz : (Binary64.ulpExponent q.num.natAbs q.den).toNat = 0 := by omega
    have hsig : Binary64.significand q.num.natAbs q.den
        ≤ m * 2 ^ (-(Binary64.ulpExponent q.num.natAbs q.den)).toNat := by
      unfold Binary64.significand
      rw [htz, pow_zero, Nat.mul_one]
      apply roundHalfEven_le _ _ _ hden
      calc q.num.natAbs * 2 ^ (-(Binary64.ulpExponent q.num.natAbs q.den)).toNat
          ≤ (m * q.den) * 2 ^ (-(Binary64.ulpExponent q.num.natAbs q.den)).toNat :=
            Nat.mul_le_mul_right _ hnle
        _ = m * 2 ^ (-(Binary64.ulpExponent q.num.natAbs q.den)).toNat * q.den := by ring
    refine ⟨mkRat ((Binary64.significand q.num.natAbs q.den *
        2 ^ (Binary64.ulpExponent q.num.natAbs q.den).toNat : Nat) : Int)
        (2 ^ (-(Binary64.ulpExponent q.num.natAbs q.den)).toNat), ?_, ?_, ?_⟩
    · unfold Binary64.round64
      rw [if_neg h0, if_neg (by omega), if_pos hpos]
    · rw [Rat.mkRat_eq_div]
      positivity
    · rw [Rat.mkRat_eq_div, htz, pow_zero, Nat.mul_one]
      have hp : (0 : ℚ) < ((2 ^ (-(Binary64.ulpExponent q.num.natAbs q.den)).toNat : Nat) : ℚ) := by
        positivity
      rw [Int.cast_natCast, div_le_iff₀ hp]
      exact_mod_cast hsig

/-! ## The error of one rounding to binary64 -/

theorem two_zpow_split (t : Int) :
    (2 : ℚ) ^ t = ((2 ^ t.toNat : Nat) : ℚ) / ((2 ^ (-t).toNat : Nat) : ℚ) := by
  rcases le_total 0 t with h | h
  · have h1 : (-t).toNat = 0 := by omega
    have h2 : (t.toNat : Int) = t := Int.toNat_of_nonneg h
    rw [h1, pow_zero, Nat.cast_one, div_one]
    conv_lhs => rw [← h2]
    rw [zpow_natCast]
    push_cast
    rfl
  · have h1 : t.toNat = 0 := by omega
    have h2 : ((-t).toNat : Int) = -t := Int.toNat_of_nonneg (by omega)
    have h3 : t = -((-t).toNat : Int) := by omega
    rw [h1, pow_zero, Nat.cast_one, one_div]
    conv_lhs => rw [h3]
    rw [zpow_neg, zpow_natCast]
    push_cast
    rfl

theorem floorLog2_spec (n d : Nat) (hn : 0 < n) (hd : 0 < d) :
    (2 : ℚ) ^ Binary64.floorLog2 n d ≤ (n : ℚ) / (d : ℚ) := by
  have hdq : (0 : ℚ) < (d : ℚ) := by exact_mod_cast hd
  unfold Binary64.floorLog2
  simp only []
  rw [log2Fuel_eq n n le_rfl, log2Fuel_eq d d le_rfl]
  have h1 : 2 ^ n.log2 ≤ n := Nat.log2_self_le (by omega)
  have h2 : d < 2 ^ (d.log2 + 1) := Nat.lt_log2_self
  split_ifs with hc
  · rw [two_zpow_split, div_le_div_iff₀ (by positivity) hdq]
    have : ((d * 2 ^ ((n.log2 : Int) - (d.log2 : Int)).toNat : Nat) : ℚ)
        ≤ ((n * 2 ^ (-((n.log2 : Int) - (d.log2 : Int))).toNat : Nat) : ℚ) := by
      exact_mod_cast hc
    push_cast at this ⊢
    linarith
  · have he : (n.log2 : Int) - (d.log2 : Int) - 1 = (n.log2 : Int) - ((d.log2 + 1 : Nat) : Int) := by
      push_cast
      ring
    rw [he, zpow_sub₀ (by norm_num : (2 : ℚ) ≠ 0), zpow_natCast, zpow_natCast]
    have h1q : ((2 : ℚ) ^ n.log2) ≤ (n : ℚ) := by exact_mod_cast h1
    have h2q : (d : ℚ) ≤ (2 : ℚ) ^ (d.log2 + 1) := by exact_mod_cast h2.le
    exact div_le_div₀ (by positivity) h1q hdq h2q

theorem roundHalfEven_upper (n d : Nat) :
    2 * (Binary64.roundHalfEven n d * d) ≤ 2 * n + d := by
  have hdm := Nat.div_add_mod n d
  have hmul : d * (n / d) = n / d * d := Nat.mul_comm _ _
  unfold Binary64.roundHalfEven
  split_ifs with h1 h2 h3
  · omega
  · rw [Nat.add_mul]; omega
  · omega
  · rw [Nat.add_mul]; omega

theorem ulp_le (n d : Nat) (hn : 0 < n) (hd : 0 < d) :
    (2 : ℚ) ^ Binary64.ulpExponent n d ≤
      (n : ℚ) / (d : ℚ) * 2 ^ (-52 : Int) + 2 ^ (-1074 : Int) := by
  have hspec := floorLog2_spec n d hn hd
  have hx : (0 : ℚ) ≤ (n : ℚ) / (d : ℚ) := by positivity
  unfold Binary64.ulpExponent
  rcases le_total (Binary64.floorLog2 n d - 52) (-1074) with h | h
  · rw [max_eq_right h]
    have : (0 : ℚ) ≤ (n : ℚ) / (d : ℚ) * 2 ^ (-52 : Int) := by positivity
    linarith
  · rw [max_eq_left h, zpow_sub₀ (by norm_num : (2 : ℚ) ≠ 0), div_eq_mul_inv, ← zpow_neg]
    have h52 : (0 : ℚ) ≤ (2 : ℚ) ^ (-(52 : Int)) := by positivity
    have h1074 : (0 : ℚ) ≤ (2 : ℚ) ^ (-1074 : Int) := by positivity
    have := mul_le_mul_of_nonneg_right hspec h52
    linarith

theorem rounded_upper (n d : Nat) (hn : 0 < n) (hd : 0 < d) :
    (mkRat ((Binary64.significand n d * 2 ^ (Binary64.ulpExponent n d).toNat : Nat) : Int)
        (2 ^ (-(Binary64.ulpExponent n d)).toNat) : ℚ) ≤
      (n : ℚ) / (d : ℚ) * (1 + 2 ^ (-53 : Int)) + 2 ^ (-1075 : Int) := by
  have hdq : (0 : ℚ) < (d : ℚ) := by exact_mod_cast hd
  have hup := roundHalfEven_upper (n * 2 ^ (-(Binary64.ulpExponent n d)).toNat)
    (d * 2 ^ (Binary64.ulpExponent n d).toNat)
  have hupq : (2 : ℚ) * ((Binary64.significand n d : ℚ) *
      ((d : ℚ) * (2 : ℚ) ^ (Binary64.ulpExponent n d).toNat)) ≤
      2 * ((n : ℚ) * (2 : ℚ) ^ (-(Binary64.ulpExponent n d)).toNat) +
        (d : ℚ) * (2 : ℚ) ^ (Binary64.ulpExponent n d).toNat := by
    have := hup
    unfold Binary64.significand
    exact_mod_cast this
  have hulp := ulp_le n d hn hd
  rw [two_zpow_split] at hulp
  push_cast at hulp
  rw [Rat.mkRat_eq_div]
  push_cast
  have hP : (0 : ℚ) < (2 : ℚ) ^ (Binary64.ulpExponent n d).toNat := by positivity
  have hM : (0 : ℚ) < (2 : ℚ) ^ (-(Binary64.ulpExponent n d)).toNat := by positivity
  have h53 : (2 : ℚ) ^ (-53 : Int) = 2 ^ (-52 : Int) / 2 := by
    rw [show (-53 : Int) = -52 - 1 by norm_num, zpow_sub₀ (by norm_num : (2 : ℚ) ≠ 0)]
    norm_num
  have h1075 : (2 : ℚ) ^ (-1075 : Int) = 2 ^ (-1074 : Int) / 2 := by
    rw [show (-1075 : Int) = -1074 - 1 by norm_num, zpow_sub₀ (by norm_num : (2 : ℚ) ≠ 0)]
    norm_num
  rw [h53, h1075]
  have hkey : (Binary64.significand n d : ℚ) * (2 : ℚ) ^ (Binary64.ulpExponent n d).toNat /
      (2 : ℚ) ^ (-(Binary64.ulpExponent n d)).toNat ≤
      (n : ℚ) / (d : ℚ) + ((2 : ℚ) ^ (Binary64.ulpExponent n d).toNat /
        (2 : ℚ) ^ (-(Binary64.ulpExponent n d)).toNat) / 2 := by
    rw [div_le_iff₀ hM]
    have e1 : ((n : ℚ) / (d : ℚ) + ((2 : ℚ) ^ (Binary64.ulpExponent n d).toNat /
        (2 : ℚ) ^ (-(Binary64.ulpExponent n d)).toNat) / 2) *
        (2 : ℚ) ^ (-(Binary64.ulpExponent n d)).toNat =
        ((n : ℚ) * (2 : ℚ) ^ (-(Binary64.ulpExponent n d)).toNat) / (d : ℚ) +
          (2 : ℚ) ^ (Binary64.ulpExponent n d).toNat / 2 := by
      field_simp
      ring
    rw [e1, ← sub_nonneg]
    have e2 : ((n : ℚ) * (2 : ℚ) ^ (-(Binary64.ulpExponent n d)).toNat) / (d : ℚ) +
        (2 : ℚ) ^ (Binary64.ulpExponent n d).toNat / 2 -
        (Binary64.significand n d : ℚ) * (2 : ℚ) ^ (Binary64.ulpExponent n d).toNat =
        (2 * ((n : ℚ) * (2 : ℚ) ^ (-(Binary64.ulpExponent n d)).toNat) +
          (d : ℚ) * (2 : ℚ) ^ (Binary64.ulpExponent n d).toNat -
          2 * ((Binary64.significand n d : ℚ) *
            ((d : ℚ) * (2 : ℚ) ^ (Binary64.ulpExponent n d).toNat))) / (2 * (d : ℚ)) := by
      field_simp
      ring
    rw [e2]
    apply div_nonneg
    · linarith
    · positivity
  linarith

theorem round64_upper (q r : ℚ) (hq : 0 ≤ q) (h : Binary64.round64 q = JSNum.fin r) :
    0 ≤ r ∧ r ≤ q * (1 + 2 ^ (-53 : Int)) + 2 ^ (-1075 : Int) := by
  by_cases h0 : q = 0
  · subst h0
    have : Binary64.round64 0 = JSNum.fin 0 := by
      unfold Binary64.round64
      rw [if_pos rfl]
    rw [this] at h
    rw [← JSNum.fin.inj h]
    constructor
    · exact le_rfl
    · positivity
  · have hpos : 0 < q := lt_of_le_of_ne hq (Ne.symm h0)
    have hnum : 0 < q.num := Rat.num_pos.mpr hpos
    have hden : 0 < q.den := q.den_pos
    have hnat : 0 < q.num.natAbs := by omega
    have hqn : ((q.num.natAbs : Nat) : ℚ) = (q.num : ℚ) := by
      have h1 : ((q.num.natAbs : Nat) : Int) = q.num := Int.natAbs_of_nonneg hnum.le
      rw [← Int.cast_natCast, h1]
    have hqeq : (q.num.natAbs : ℚ) / (q.den : ℚ) = q := by
      rw [hqn]
      exact Rat.num_div_den q
    have hup := rounded_upper q.num.natAbs q.den hnat hden
    rw [hqeq] at hup
    unfold Binary64.round64 at h
    rw [if_neg h0] at h
    by_cases hov : 971 < Binary64.ulpExponent q.num.natAbs q.den ∨
        (Binary64.ulpExponent q.num.natAbs q.den = 971 ∧
          2 ^ 53 ≤ Binary64.significand q.num.natAbs q.den)
    · rw [if_pos hov, if_pos hpos] at h
      exact JSNum.noConfusion h
    · rw [if_neg hov, if_pos hpos] at h
      rw [← JSNum.fin.inj h]
      constructor
      · rw [Rat.mkRat_eq_div]
        positivity
      · exact hup

theorem round64_neg_lower (q r : ℚ) (hq : q < 0) (h : Binary64.round64 q = JSNum.fin r) :
    -((-q) * (1 + 2 ^ (-53 : Int)) + 2 ^ (-1075 : Int)) ≤ r := by
  have h0 : q ≠ 0 := ne_of_lt hq
  have hnum : q.num < 0 := Rat.num_neg.mpr hq
  have hden : 0 < q.den := q.den_pos
  have hnat : 0 < q.num.natAbs := by omega
  have hqn : ((q.num.natAbs : Nat) : ℚ) = -(q.num : ℚ) := by
    have h1 : ((q.num.natAbs : Nat) : Int) = -q.num := by omega
    rw [← Int.cast_natCast, h1]
    push_cast
    rfl
  have hqeq : (q.num.natAbs : ℚ) / (q.den : ℚ) = -q := by
    rw [hqn, neg_div]
    rw [Rat.num_div_den q]
  have hup := rounded_upper q.num.natAbs q.den hnat hden
  rw [hqeq] at hup
  have hnp : ¬ (0 < q) := not_lt.mpr hq.le
  unfold Binary64.round64 at h
  rw [if_neg h0] at h
  by_cases hov : 971 < Binary64.ulpExponent q.num.natAbs q.den ∨
      (Binary64.ulpExponent q.num.natAbs q.den = 971 ∧
        2 ^ 53 ≤ Binary64.significand q.num.natAbs q.den)
  · rw [if_pos hov, if_neg hnp] at h
    exact JSNum.noConfusion h
  · rw [if_neg hov, if_neg hnp] at h
    rw [← JSNum.fin.inj h]
    linarith

/-! ## Discount bounds in binary64 -/

theorem binary64_parseFloat_empty : Binary64.parseFloat "" = JSNum.nan := by decide

theorem binary64_discountError_of_valid (st : CartState) (raw : String) (v : ℚ)
    (hparse : Binary64.parseFloat raw = JSNum.fin v) (h0 : 0 ≤ v) (h100 : v ≤ 100) :
    (Binary64.handleDiscountChange st raw).discountError = "" := by
  unfold Binary64.handleDiscountChange
  simp [hparse, JSNum.isNaN, JSNum.lt, JSNum.gt, not_lt.mpr h0, not_lt.mpr h100]

theorem binary64_mul_nonneg (a b : ℚ) (ha : 0 ≤ a) (hb : 0 ≤ b) :
    Binary64.mul (JSNum.fin a) (JSNum.fin b) = JSNum.pinf ∨
    ∃ c : ℚ, Binary64.mul (JSNum.fin a) (JSNum.fin b) = JSNum.fin c ∧ 0 ≤ c :=
  round64_nonneg (a * b) (mul_nonneg ha hb)

theorem binary64_foldl_subTotal (products : List LineItem)
    (h : ∀ p ∈ products, ∃ a b : ℚ, p.price = JSNum.fin a ∧ 0 ≤ a ∧
      p.quantity = JSNum.fin b ∧ 1 ≤ b) (acc : JSNum)
    (hacc : acc = JSNum.pinf ∨ ∃ x : ℚ, acc = JSNum.fin x ∧ 0 ≤ x) :
    products.foldl (fun acc curr => Binary64.add acc (Binary64.mul curr.price curr.quantity)) acc
        = JSNum.pinf ∨
    ∃ s : ℚ, products.foldl
      (fun acc curr => Binary64.add acc (Binary64.mul curr.price curr.quantity)) acc
        = JSNum.fin s ∧ 0 ≤ s := by
  induction products generalizing acc with
  | nil => exact hacc
  | cons p ps ih =>
    obtain ⟨a, b, hp, ha, hq, hb⟩ := h p (List.mem_cons_self p ps)
    have hps : ∀ x ∈ ps, ∃ a b : ℚ, x.price = JSNum.fin a ∧ 0 ≤ a ∧
        x.quantity = JSNum.fin b ∧ 1 ≤ b := fun x hx => h x (List.mem_cons_of_mem p hx)
    rw [List.foldl_cons]
    apply ih hps
    rw [hp, hq]
    rcases binary64_mul_nonneg a b ha (by linarith) with hm | ⟨c, hm, hc⟩
    · rw [hm]
      rcases hacc with hacc | ⟨x, hacc, _⟩
      · left; rw [hacc]; rfl
      · left; rw [hacc]; rfl
    · rw [hm]
      rcases hacc with hacc | ⟨x, hacc, hx⟩
      · left; rw [hacc]; rfl
      · rw [hacc]
        exact round64_nonneg (x + c) (by linarith)

/-- C6, as stated, fails. In binary64 the price 0.07 with quantity 3 has the
subtotal 0.21000000000000002; the valid discount "100" gives the discount
0.21000000000000005, above the subtotal, and a negative total. And a quantity
of `+Infinity`, which is `>= 1` and which `handleQuantityChange` stores for the
text "Infinity", makes the total NaN with the valid discount "10". -/
theorem discount_exceeds_subtotal :
    (∃ a : ℚ, Binary64.round64 (7 / 100) = JSNum.fin a ∧ 0 ≤ a) ∧
    Binary64.parseFloat "100" = JSNum.fin 100 ∧
    (Binary64.handleDiscountChange
      ⟨[{ id := 1, name := "Product A", price := Binary64.round64 (7 / 100), quantity := JSNum.fin 3 }], "", ""⟩ "100").discountError = "" ∧
    JSNum.lt
      (Binary64.subTotal [{ id := 1, name := "Product A", price := Binary64.round64 (7 / 100), quantity := JSNum.fin 3 }])
      (Binary64.discountVal (Binary64.handleDiscountChange
        ⟨[{ id := 1, name := "Product A", price := Binary64.round64 (7 / 100), quantity := JSNum.fin 3 }], "", ""⟩ "100")) = true ∧
    JSNum.lt
      (Binary64.finalTotal (Binary64.handleDiscountChange
        ⟨[{ id := 1, name := "Product A", price := Binary64.round64 (7 / 100), quantity := JSNum.fin 3 }], "", ""⟩ "100"))
      (JSNum.fin 0) = true ∧
    handleQuantityChange productList 1 (JSPrim.str "Infinity") =
      [ { id := 1, name := "Product A", price := JSNum.fin 50, quantity := JSNum.pinf },
        { id := 2, name := "Product B", price := JSNum.fin 30, quantity := JSNum.fin 1 } ] ∧
    JSNum.ge JSNum.pinf (JSNum.fin 1) = true ∧
    Binary64.parseFloat "10" = JSNum.fin 10 ∧
    Binary64.finalTotal (Binary64.handleDiscountChange
      ⟨handleQuantityChange productList 1 (JSPrim.str "Infinity"), "", ""⟩ "10") = JSNum.nan := by
  refine ⟨?_, ?_, ?_, ?_, ?_, ?_, ?_, ?_, ?_⟩
  · obtain ⟨r, hr, hr0, _⟩ := round64_le_nat (7 / 100) 1 (by norm_num) (by norm_num) (by norm_num)
    exact ⟨r, hr, hr0⟩
  all_goals with_unfolding_all decide

theorem slack_discount (s v c d u e : ℚ) (hs0 : 0 ≤ s) (h100 : v ≤ 100)
    (hu0 : 0 ≤ u) (hu1 : u ≤ 1 / 2) (he0 : 0 ≤ e)
    (hc : c ≤ s * v * (1 + u) + e) (hd : d ≤ c / 100 * (1 + u) + e) :
    d ≤ s * (1 + 4 * u) + 2 * e := by
  have hsv : s * v ≤ s * 100 := mul_le_mul_of_nonneg_left h100 hs0
  have h1 : s * v * (1 + u) ≤ s * 100 * (1 + u) := mul_le_mul_of_nonneg_right hsv (by linarith)
  have hc' : c / 100 ≤ s * (1 + u) + e / 100 := by linarith
  have h2 : c / 100 * (1 + u) ≤ (s * (1 + u) + e / 100) * (1 + u) :=
    mul_le_mul_of_nonneg_right hc' (by linarith)
  have hsu : 0 ≤ s * u := mul_nonneg hs0 hu0
  have hsuu : s * u * u ≤ s * u * (1 / 2) := mul_le_mul_of_nonneg_left hu1 hsu
  have heu : e * u ≤ e * (1 / 2) := mul_le_mul_of_nonneg_left hu1 he0
  have hexp : (s * (1 + u) + e / 100) * (1 + u) =
      s + 2 * (s * u) + s * u * u + e / 100 + e * u / 100 := by ring
  rw [hexp] at h2
  linarith

theorem slack_total (s d t u e : ℚ) (hs0 : 0 ≤ s)
    (hu0 : 0 ≤ u) (hu1 : u ≤ 1 / 2)
    (hle : d ≤ s * (1 + 4 * u) + 2 * e) (hneg : s - d < 0)
    (hlow : -(-(s - d) * (1 + u) + e) ≤ t) :
    -(s * (8 * u) + 4 * e) ≤ t := by
  have hg0 : 0 ≤ d - s := by linarith
  have hgu : (d - s) * u ≤ (d - s) * (1 / 2) := mul_le_mul_of_nonneg_left hu1 hg0
  have hsu : 0 ≤ s * u := mul_nonneg hs0 hu0
  have hexp : -(s - d) * (1 + u) = (d - s) + (d - s) * u := by ring
  rw [hexp] at hlow
  linarith

theorem binary64_discount_cases (s v : ℚ) (hs0 : 0 ≤ s) (h0 : 0 ≤ v) (h100 : v ≤ 100) :
    Binary64.div (Binary64.mul (JSNum.fin s) (JSNum.fin v)) (JSNum.fin 100) = JSNum.pinf ∨
    ∃ d : ℚ, Binary64.div (Binary64.mul (JSNum.fin s) (JSNum.fin v)) (JSNum.fin 100)
        = JSNum.fin d ∧ 0 ≤ d ∧
      d ≤ s * (1 + 2 ^ (-51 : Int)) + 2 ^ (-1074 : Int) := by
  have hu0 : (0 : ℚ) < 2 ^ (-53 : Int) := by positivity
  have he0 : (0 : ℚ) < 2 ^ (-1075 : Int) := by positivity
  have hu1 : (2 : ℚ) ^ (-53 : Int) ≤ 1 / 2 := by
    rw [show (-53 : Int) = -1 + -52 by norm_num, zpow_add₀ (by norm_num : (2 : ℚ) ≠ 0)]
    have : (2 : ℚ) ^ (-52 : Int) ≤ 1 := zpow_le_one_of_nonpos₀ (by norm_num) (by norm_num)
    have h2 : (2 : ℚ) ^ (-1 : Int) = 1 / 2 := by norm_num
    rw [h2]
    nlinarith
  have h51 : (2 : ℚ) ^ (-51 : Int) = 4 * 2 ^ (-53 : Int) := by
    rw [show (-51 : Int) = 2 + -53 by norm_num, zpow_add₀ (by norm_num : (2 : ℚ) ≠ 0)]
    norm_num
  have h1074 : (2 : ℚ) ^ (-1074 : Int) = 2 * 2 ^ (-1075 : Int) := by
    rw [show (-1074 : Int) = 1 + -1075 by norm_num, zpow_add₀ (by norm_num : (2 : ℚ) ≠ 0)]
    norm_num
  have hdiv : ∀ c : ℚ, Binary64.div (JSNum.fin c) (JSNum.fin 100) = Binary64.round64 (c / 100) := by
    intro c
    simp [Binary64.div, JSNum.div, Binary64.roundNum]
  have hmul : Binary64.mul (JSNum.fin s) (JSNum.fin v) = Binary64.round64 (s * v) := rfl
  rcases round64_nonneg (s * v) (mul_nonneg hs0 h0) with hm | ⟨c, hm, hc0⟩
  · left
    rw [hmul, hm]
    simp [Binary64.div, JSNum.div, Binary64.roundNum]
  · have hcup := (round64_upper (s * v) c (mul_nonneg hs0 h0) hm).2
    rw [hmul, hm, hdiv c]
    rcases round64_nonneg (c / 100) (div_nonneg hc0 (by norm_num)) with hd | ⟨d, hd, hd0⟩
    · left; exact hd
    · right
      have hdup := (round64_upper (c / 100) d (div_nonneg hc0 (by norm_num)) hd).2
      refine ⟨d, hd, hd0, ?_⟩
      rw [h51, h1074]
      exact slack_discount s v c d _ _ hs0 h100 hu0.le hu1 he0.le hcup hdup

/-- C6, amended. Discount bounds in the binary64 arithmetic of the source, on a
cart whose items have finite non-negative prices and finite quantities `>= 1`
and whose subtotal `s` is finite, after `handleDiscountChange(raw)` with a raw
value that parses to `v`, `0 <= v <= 100`: `s` is not negative; `discountVal`
is `(s × v) / 100` with the product and the quotient each rounded to binary64;
it is not negative and, when finite, at most `s × (1 + 2^-51) + 2^-1074`; and
`finalTotal`, when finite, is at least `-(s × 2^-50 + 2^-1073)`. When moreover
`s` is a whole number with `100 × s < 2^53`, `discountVal` is at most `s` and
`finalTotal` is a finite number between 0 and `s`. -/
theorem discount_bounds_binary64 (st : CartState) (raw : String) (v s : ℚ)
    (hitems : ∀ p ∈ st.products, ∃ a b : ℚ, p.price = JSNum.fin a ∧ 0 ≤ a ∧
      p.quantity = JSNum.fin b ∧ 1 ≤ b)
    (hparse : Binary64.parseFloat raw = JSNum.fin v) (h0 : 0 ≤ v) (h100 : v ≤ 100)
    (hs : Binary64.subTotal (Binary64.handleDiscountChange st raw).products = JSNum.fin s) :
    0 ≤ s ∧
    Binary64.discountVal (Binary64.handleDiscountChange st raw) =
      Binary64.div (Binary64.mul (JSNum.fin s) (JSNum.fin v)) (JSNum.fin 100) ∧
    JSNum.ge (Binary64.discountVal (Binary64.handleDiscountChange st raw)) (JSNum.fin 0) = true ∧
    (∀ d : ℚ, Binary64.discountVal (Binary64.handleDiscountChange st raw) = JSNum.fin d →
      d ≤ s * (1 + 2 ^ (-51 : Int)) + 2 ^ (-1074 : Int)) ∧
    (∀ t : ℚ, Binary64.finalTotal (Binary64.handleDiscountChange st raw) = JSNum.fin t →
      -(s * 2 ^ (-50 : Int) + 2 ^ (-1073 : Int)) ≤ t) ∧
    (∀ n : Nat, s = (n : ℚ) → 100 * n < 2 ^ 53 →
      ∃ d t : ℚ, Binary64.discountVal (Binary64.handleDiscountChange st raw) = JSNum.fin d ∧
        0 ≤ d ∧ d ≤ s ∧
        Binary64.finalTotal (Binary64.handleDiscountChange st raw) = JSNum.fin t ∧
        0 ≤ t ∧ t ≤ s) := by
  have hprod : (Binary64.handleDiscountChange st raw).products = st.products := rfl
  have hdisc : (Binary64.handleDiscountChange st raw).discount = raw := rfl
  rw [hprod] at hs
  have hs0 : 0 ≤ s := by
    rcases binary64_foldl_subTotal st.products hitems (JSNum.fin 0) (Or.inr ⟨0, rfl, le_rfl⟩)
      with h | ⟨x, h, hx⟩
    · rw [Binary64.subTotal] at hs
      rw [hs] at h
      exact JSNum.noConfusion h
    · rw [Binary64.subTotal] at hs
      rw [hs] at h
      rw [JSNum.fin.inj h]
      exact hx
  have hraw : raw ≠ "" := by
    intro he
    rw [he, binary64_parseFloat_empty] at hparse
    exact JSNum.noConfusion hparse
  have herr := binary64_discountError_of_valid st raw v hparse h0 h100
  have hval : Binary64.discountVal (Binary64.handleDiscountChange st raw) =
      Binary64.div (Binary64.mul (JSNum.fin s) (JSNum.fin v)) (JSNum.fin 100) := by
    unfold Binary64.discountVal
    rw [herr, hdisc, hprod, hs, hparse]
    have ht : truthy raw = true := (truthy_iff raw).mpr hraw
    have he : truthy "" = false := by decide
    simp [ht, he]
  have hdivpos : ∀ c : ℚ,
      Binary64.div (JSNum.fin c) (JSNum.fin 100) = Binary64.round64 (c / 100) := by
    intro c
    simp [Binary64.div, JSNum.div, Binary64.roundNum]
  have hcases := binary64_discount_cases s v hs0 h0 h100
  rw [← hval] at hcases
  have hfinal : ∀ d : ℚ, Binary64.discountVal (Binary64.handleDiscountChange st raw) = JSNum.fin d →
      Binary64.finalTotal (Binary64.handleDiscountChange st raw) = Binary64.round64 (s - d) := by
    intro d hd
    unfold Binary64.finalTotal
    rw [hd, hprod, hs]
    simp only [Binary64.sub, JSNum.sub, JSNum.neg, JSNum.add, Binary64.roundNum]
    rw [← sub_eq_add_neg]
  refine ⟨hs0, hval, ?_, ?_, ?_, ?_⟩
  · rcases hcases with h | ⟨d, h, hd0, _⟩
    · rw [h]; simp [JSNum.ge, JSNum.lt]
    · rw [h, JSNum.ge_fin]
      simpa using hd0
  · intro d hd
    rcases hcases with h | ⟨d', h, _, hle⟩
    · rw [h] at hd
      exact JSNum.noConfusion hd
    · rw [h] at hd
      rw [← JSNum.fin.inj hd]
      exact hle
  · intro t ht
    have h50 : (2 : ℚ) ^ (-50 : Int) = 2 * 2 ^ (-51 : Int) := by
      rw [show (-50 : Int) = 1 + -51 by norm_num, zpow_add₀ (by norm_num : (2 : ℚ) ≠ 0)]
      norm_num
    have h1073 : (2 : ℚ) ^ (-1073 : Int) = 2 * 2 ^ (-1074 : Int) := by
      rw [show (-1073 : Int) = 1 + -1074 by norm_num, zpow_add₀ (by norm_num : (2 : ℚ) ≠ 0)]
      norm_num
    have h1074 : (2 : ℚ) ^ (-1074 : Int) = 2 * 2 ^ (-1075 : Int) := by
      rw [show (-1074 : Int) = 1 + -1075 by norm_num, zpow_add₀ (by norm_num : (2 : ℚ) ≠ 0)]
      norm_num
    have hu0 : (0 : ℚ) < 2 ^ (-53 : Int) := by positivity
    have he0 : (0 : ℚ) < 2 ^ (-1075 : Int) := by positivity
    have h51p : (0 : ℚ) < 2 ^ (-51 : Int) := by positivity
    have hu1 : (2 : ℚ) ^ (-53 : Int) ≤ 1 / 2 := by
      rw [show (-53 : Int) = -1 + -52 by norm_num, zpow_add₀ (by norm_num : (2 : ℚ) ≠ 0)]
      have : (2 : ℚ) ^ (-52 : Int) ≤ 1 := zpow_le_one_of_nonpos₀ (by norm_num) (by norm_num)
      have h2 : (2 : ℚ) ^ (-1 : Int) = 1 / 2 := by norm_num
      rw [h2]
      nlinarith
    rcases hcases with h | ⟨d, h, hd0, hle⟩
    · unfold Binary64.finalTotal at ht
      rw [h, hprod, hs] at ht
      simp [Binary64.sub, JSNum.sub, JSNum.neg, JSNum.add, Binary64.roundNum] at ht
    · rw [hfinal d h] at ht
      have hB : (0 : ℚ) ≤ s * 2 ^ (-50 : Int) + 2 ^ (-1073 : Int) := by positivity
      by_cases hsd : 0 ≤ s - d
      · have := (round64_upper (s - d) t hsd ht).1
        linarith
      · have hneg : s - d < 0 := not_le.mp hsd
        have hlow := round64_neg_lower (s - d) t hneg ht
        have h51 : (2 : ℚ) ^ (-51 : Int) = 4 * 2 ^ (-53 : Int) := by
          rw [show (-51 : Int) = 2 + -53 by norm_num, zpow_add₀ (by norm_num : (2 : ℚ) ≠ 0)]
          norm_num
        rw [h51, h1074] at hle
        have := slack_total s d t _ _ hs0 hu0.le hu1 hle hneg hlow
        rw [h50, h1073, h51, h1074]
        linarith
  · intro n hn hbound
    subst hn
    have hsv : (n : ℚ) * v ≤ ((100 * n : Nat) : ℚ) := by
      push_cast
      nlinarith
    obtain ⟨c, hc, hc0, hcle⟩ := round64_le_nat ((n : ℚ) * v) (100 * n)
      (mul_nonneg hs0 h0) hsv hbound
    have hmul : Binary64.mul (JSNum.fin (n : ℚ)) (JSNum.fin v) = JSNum.fin c := hc
    have hc100 : c / 100 ≤ (n : ℚ) := by
      push_cast at hcle
      linarith
    obtain ⟨d, hd, hd0, hdle⟩ := round64_le_nat (c / 100) n
      (div_nonneg hc0 (by norm_num)) hc100 (by omega)
    have hvald : Binary64.discountVal (Binary64.handleDiscountChange st raw) = JSNum.fin d := by
      rw [hval, hmul, hdivpos c, hd]
    obtain ⟨t, ht, ht0, htle⟩ := round64_le_nat ((n : ℚ) - d) n (by linarith) (by linarith)
      (by omega)
    refine ⟨d, t, hvald, hd0, hdle, ?_, ht0, htle⟩
    rw [hfinal d hvald]
    exact ht

/-- Witness for the amended C6: the default catalog with the discount "10". -/
theorem discount_bounds_binary64_witness :
    Binary64.parseFloat "10" = JSNum.fin 10 ∧
    Binary64.subTotal (Binary64.handleDiscountChange ⟨productList, "", ""⟩ "10").products
      = JSNum.fin 80 ∧
    (0 : ℚ) ≤ 80 ∧
    Binary64.discountVal (Binary64.handleDiscountChange ⟨productList, "", ""⟩ "10") =
      Binary64.div (Binary64.mul (JSNum.fin 80) (JSNum.fin 10)) (JSNum.fin 100) ∧
    JSNum.ge (Binary64.discountVal (Binary64.handleDiscountChange ⟨productList, "", ""⟩ "10"))
      (JSNum.fin 0) = true ∧
    (∀ d : ℚ, Binary64.discountVal (Binary64.handleDiscountChange ⟨productList, "", ""⟩ "10")
        = JSNum.fin d → d ≤ 80 * (1 + 2 ^ (-51 : Int)) + 2 ^ (-1074 : Int)) ∧
    (∀ t : ℚ, Binary64.finalTotal (Binary64.handleDiscountChange ⟨productList, "", ""⟩ "10")
        = JSNum.fin t → -(80 * 2 ^ (-50 : Int) + 2 ^ (-1073 : Int)) ≤ t) ∧
    (∀ n : Nat, (80 : ℚ) = (n : ℚ) → 100 * n < 2 ^ 53 →
      ∃ d t : ℚ,
        Binary64.discountVal (Binary64.handleDiscountChange ⟨productList, "", ""⟩ "10")
          = JSNum.fin d ∧ 0 ≤ d ∧ d ≤ 80 ∧
        Binary64.finalTotal (Binary64.handleDiscountChange ⟨productList, "", ""⟩ "10")
          = JSNum.fin t ∧ 0 ≤ t ∧ t ≤ 80) :=
  ⟨by with_unfolding_all decide, by with_unfolding_all decide,
    discount_bounds_binary64 ⟨productList, "", ""⟩ "10" 10 80 productList_fin
      (by with_unfolding_all decide) (by norm_num) (by norm_num)
      (by with_unfolding_all decide)⟩

end Cart
